import Mathlib

/-!
# Sorting routines and binary max-heap of `stupid_C_tricks`

A shallow embedding of `include/record.h`, `sorting/heap_sort.c`,
`sorting/insertion_sort.c` and `sorting/merge_sort.c`, followed by the
properties proved about it.

Modelling conventions

* A C array of `record_t` is a `List record_t`; the functions take the
  array and the length argument separately, as the C code does, and work on
  the first `length` slots.  Every statement that reads or writes a slot is
  preceded by a check that the slot lies inside the list; an access outside
  it is the outcome `Fault.bounds`.
* `key` is a C `int`, modelled by `Int` (keys are only compared).
  `payload` is an opaque pointer, modelled by the address as a `Nat`.
* Index variables of type `int` and `size_t` are modelled by `Int` and
  `Nat` without wrap-around: the index arithmetic of the code is exact for
  every array shorter than `2^30` records.
* A call either returns (`.ok`) or ends in an `Abort`: the fault and the
  array as it is at that moment.  A failed `assert` is the fault
  `Fault.assertion`, a call of `exit` is `Fault.exit`.  Loops and recursions
  whose counter does not simply count down carry a step budget; an exhausted
  budget is `Fault.fuel`, and the specification of each function below shows
  that the budget it is given suffices.
-/

namespace Sorting

/-! ## include/record.h -/

/-- The C source: `typedef struct record_t { int key; void *payload; } record_t;` -/
structure record_t where
  key : Int
  payload : Nat
  deriving DecidableEq, Repr

/-- Ways a call can end without returning. -/
inductive Fault where
  | assertion
  | fuel
  | exit
  | bounds
  deriving DecidableEq, Repr

/-- A call that ends without returning: the fault, and the array as the call leaves it. -/
structure Abort where
  fault : Fault
  array : List record_t
  deriving DecidableEq, Repr

/-- Read of `array[i]`, for a slot `i` inside the array. -/
def rd (array : List record_t) (i : Nat) : record_t :=
  array.getD i ⟨0, 0⟩

/-- Every 0-based slot of `slots` lies inside `buffer`. -/
def within (buffer : List record_t) (slots : List Nat) : Prop :=
  ∀ i ∈ slots, i < buffer.length

instance within_decidable (buffer : List record_t) (slots : List Nat) :
    Decidable (within buffer slots) :=
  List.decidableBAll (fun i => i < buffer.length) slots

/-- For every 1-based position `p` of `positions` the slot `array[INDEX(p)]` lies inside
`array`: `0 <= p - 1 < length`. -/
def inside (array : List record_t) (positions : List Int) : Prop :=
  ∀ p ∈ positions, 0 < p ∧ p ≤ (array.length : Int)

instance inside_decidable (array : List record_t) (positions : List Int) :
    Decidable (inside array positions) :=
  List.decidableBAll (fun p => 0 < p ∧ p ≤ (array.length : Int)) positions

/-- The ranges `dst[d .. d + count)` and `src[s .. s + count)` lie inside their buffers. -/
def copy_within (dst : List record_t) (d : Nat) (src : List record_t) (s count : Nat) : Prop :=
  d + count ≤ dst.length ∧ s + count ≤ src.length

instance copy_within_decidable (dst : List record_t) (d : Nat) (src : List record_t)
    (s count : Nat) : Decidable (copy_within dst d src s count) :=
  instDecidableAnd

/-- Assignment `array[i].key = k`. -/
def set_key (array : List record_t) (i : Nat) (k : Int) : List record_t :=
  array.set i ⟨k, (rd array i).payload⟩

/-- Assignment `array[i].payload = p`. -/
def set_payload (array : List record_t) (i : Nat) (p : Nat) : List record_t :=
  array.set i ⟨(rd array i).key, p⟩

/-- The C source: `swap_records(&array[a], &array[b])`, field by field as in record.h; the
callers check that both slots lie inside the array. -/
def swap_records (array : List record_t) (a b : Nat) : List record_t :=
  let tmp_key := (rd array a).key
  let tmp_payload := (rd array a).payload
  let array := set_key array a (rd array b).key
  let array := set_payload array a (rd array b).payload
  let array := set_key array b tmp_key
  let array := set_payload array b tmp_payload
  array

/-! ## sorting/heap_sort.c -/

/-- The C source: `#define LEFT(i) ((i) * 2)` -/
def LEFT (i : Int) : Int := i * 2

/-- The C source: `#define RIGHT(i) ((i) * 2 + 1)` -/
def RIGHT (i : Int) : Int := i * 2 + 1

/-- The C source: `#define PARENT(i) ((i) / 2)`, C division truncating towards zero. -/
def PARENT (i : Int) : Int := Int.tdiv i 2

/-- The C source: `#define INDEX(i) ((i) - 1)` -/
def INDEX (i : Int) : Int := i - 1

/-- The slot `array[INDEX(i)]` addressed by the 1-based position `i`. -/
def slot (i : Int) : Nat := (INDEX i).toNat

/-- The body of `heapify_max`, with a budget for the recursion depth.  In `left <= heap_size`
and `right <= heap_size` the C code converts the `int` to `size_t`; both are positive once the
assertion has passed, so the comparison is that of the numbers.  The two slots of each
comparison are read only when the index test before the `&&` holds. -/
def heapify_max_fuel : Nat → List record_t → Nat → Int → Except Abort (List record_t)
  | 0, array, _, _ => .error ⟨Fault.fuel, array⟩
  | fuel + 1, array, heap_size, i =>
    if ¬ (i > 0) then .error ⟨Fault.assertion, array⟩
    else
      let left := LEFT i
      let right := RIGHT i
      let largest := i
      if left ≤ (heap_size : Int) ∧ ¬ inside array [left, largest] then
        .error ⟨Fault.bounds, array⟩
      else
        let largest :=
          if left ≤ (heap_size : Int) ∧ (rd array (slot left)).key > (rd array (slot largest)).key
          then left else largest
        if right ≤ (heap_size : Int) ∧ ¬ inside array [right, largest] then
          .error ⟨Fault.bounds, array⟩
        else
          let largest :=
            if right ≤ (heap_size : Int) ∧
              (rd array (slot right)).key > (rd array (slot largest)).key
            then right else largest
          if largest ≠ i then
            if ¬ inside array [i, largest] then .error ⟨Fault.bounds, array⟩
            else
              heapify_max_fuel fuel (swap_records array (slot i) (slot largest)) heap_size largest
          else .ok array

/-- The C source: `void heapify_max(record_t *array, size_t heap_size, int i)`. -/
def heapify_max (array : List record_t) (heap_size : Nat) (i : Int) :
    Except Abort (List record_t) :=
  heapify_max_fuel (heap_size + 1) array heap_size i

/-- The loop `while (index > 0) heapify_max(array, array_len, index--);`. -/
def max_heap_build_loop : List record_t → Nat → Nat → Except Abort (List record_t)
  | array, _, 0 => .ok array
  | array, array_len, index + 1 =>
    match heapify_max array array_len ((index + 1 : Nat) : Int) with
    | .ok array => max_heap_build_loop array array_len index
    | .error e => .error e

/-- The C source: `void max_heap_build(record_t *array, size_t array_len)`. -/
def max_heap_build (array : List record_t) (array_len : Nat) : Except Abort (List record_t) :=
  max_heap_build_loop array array_len (array_len / 2)

/-- The loop `while (array_len > 1) { swap; array_len -= 1; heapify_max(array, array_len, 1); }`. -/
def heapsort_max_loop : List record_t → Nat → Except Abort (List record_t)
  | array, 0 => .ok array
  | array, array_len + 1 =>
    if array_len + 1 > 1 then
      if ¬ inside array [1, ((array_len + 1 : Nat) : Int)] then .error ⟨Fault.bounds, array⟩
      else
        let array := swap_records array (slot 1) (slot ((array_len + 1 : Nat) : Int))
        match heapify_max array array_len 1 with
        | .ok array => heapsort_max_loop array array_len
        | .error e => .error e
    else .ok array

/-- The C source: `void heapsort_max(record_t *array, size_t array_len)`. -/
def heapsort_max (array : List record_t) (array_len : Nat) : Except Abort (List record_t) :=
  match max_heap_build array array_len with
  | .ok array => heapsort_max_loop array array_len
  | .error e => .error e

/-- The C source: `record_t *heap_get_max(record_t *array, size_t array_len)`; returns the
record the returned pointer `&array[0]` designates, together with the array as the call leaves
it. -/
def heap_get_max (array : List record_t) (array_len : Nat) :
    Except Abort (record_t × List record_t) :=
  if ¬ (array_len > 0) then .error ⟨Fault.assertion, array⟩
  else if ¬ within array [0] then .error ⟨Fault.bounds, array⟩
  else .ok (rd array 0, array)

/-- The C source: `record_t heap_pop_max(record_t *array, size_t array_len)`; returns the copy of
the old root together with the array as the call leaves it. -/
def heap_pop_max (array : List record_t) (array_len : Nat) :
    Except Abort (record_t × List record_t) :=
  if ¬ (array_len > 0) then .error ⟨Fault.assertion, array⟩
  else if ¬ within array [0] then .error ⟨Fault.bounds, array⟩
  else
    let max := rd array 0
    if ¬ inside array [(array_len : Int)] then .error ⟨Fault.bounds, array⟩
    else
      let array := set_key array 0 (rd array (slot (array_len : Int))).key
      let array := set_payload array 0 (rd array (slot (array_len : Int))).payload
      match heapify_max array (array_len - 1) 1 with
      | .ok array => .ok (max, array)
      | .error e => .error e

/-- The sift-up loop `while (i > 1 && array[INDEX(PARENT(i))].key < array[INDEX(i)].key)` of
`max_heap_insert`; the two slots are read only when `i > 1`. -/
def max_heap_insert_loop : Nat → List record_t → Int → Except Abort (List record_t)
  | 0, array, _ => .error ⟨Fault.fuel, array⟩
  | fuel + 1, array, i =>
    if i > 1 ∧ ¬ inside array [PARENT i, i] then .error ⟨Fault.bounds, array⟩
    else if i > 1 ∧ (rd array (slot (PARENT i))).key < (rd array (slot i)).key then
      max_heap_insert_loop fuel (swap_records array (slot (PARENT i)) (slot i)) (PARENT i)
    else .ok array

/-- The C source: `void max_heap_insert(record_t *array, size_t array_capacity, size_t heap_size,
int key, void *payload)`. -/
def max_heap_insert (array : List record_t) (array_capacity heap_size : Nat)
    (key : Int) (payload : Nat) : Except Abort (List record_t) :=
  if ¬ (array_capacity > heap_size) then .error ⟨Fault.assertion, array⟩
  else
    let heap_size := heap_size + 1
    if ¬ inside array [(heap_size : Int)] then .error ⟨Fault.bounds, array⟩
    else
      let array := set_key array (slot (heap_size : Int)) key
      let array := set_payload array (slot (heap_size : Int)) payload
      let i : Int := (heap_size : Int)
      max_heap_insert_loop (heap_size + 1) array i

/-! ## sorting/insertion_sort.c -/

/-- The inner loop `while (index > 0 && array[index - 1].key > target.key)` of `insertion_sort`,
by recursion on `index`; returns the array and the final `index`.  The slot `index - 1` is
read only when `index > 0`. -/
def insertion_shift (target : record_t) :
    List record_t → Nat → Except Abort (List record_t × Nat)
  | array, 0 => .ok (array, 0)
  | array, index + 1 =>
    if ¬ within array [index] then .error ⟨Fault.bounds, array⟩
    else if (rd array index).key > target.key then
      if ¬ within array [index + 1] then .error ⟨Fault.bounds, array⟩
      else insertion_shift target (array.set (index + 1) (rd array index)) index
    else .ok (array, index + 1)

/-- The outer loop `while (cursor < length)` of `insertion_sort`. -/
def insertion_sort_loop : Nat → List record_t → Nat → Nat → Except Abort (List record_t)
  | 0, array, _, _ => .error ⟨Fault.fuel, array⟩
  | fuel + 1, array, length, cursor =>
    if cursor < length then
      if ¬ within array [cursor] then .error ⟨Fault.bounds, array⟩
      else
        let target := rd array cursor
        let index := cursor
        match insertion_shift target array index with
        | .error e => .error e
        | .ok (array, index) =>
          if ¬ within array [index] then .error ⟨Fault.bounds, array⟩
          else insertion_sort_loop fuel (array.set index target) length (cursor + 1)
    else .ok array

/-- The C source: `void insertion_sort(record_t *array, size_t length)`. -/
def insertion_sort (array : List record_t) (length : Nat) : Except Abort (List record_t) :=
  insertion_sort_loop (length + 1) array length 1

/-! ## sorting/merge_sort.c -/

/-- Modelled from the spec: the `MIN` macro of `utils.h`, a header that is not among the
sources; the spec gives the right run the length `min(span, n - index - span)`. -/
def MIN (a b : Nat) : Nat := if a < b then a else b

/-- The C library call `memcpy(&dst[d], &src[s], count * sizeof(record_t))` on distinct buffers;
the callers check with `copy_within` that both ranges lie inside their buffers. -/
def memcpy (dst : List record_t) (d : Nat) (src : List record_t) (s : Nat) :
    Nat → List record_t
  | 0 => dst
  | count + 1 => memcpy (dst.set d (rd src s)) (d + 1) src (s + 1) count

/-- The loop `while (ptr1 != end1 && ptr2 != end2)` of `merge`.  The pointers into the run are
offsets from `&array[base]`, `sptr` is an offset into `scratch`. -/
def merge_loop : Nat → List record_t → Nat → Nat → Nat → List record_t → Nat → Nat → Nat →
    Except Abort (List record_t × Nat × Nat × Nat)
  | 0, array, _, _, _, _, _, _, _ => .error ⟨Fault.fuel, array⟩
  | fuel + 1, array, base, end1, end2, scratch, sptr, ptr1, ptr2 =>
    if ptr1 ≠ end1 ∧ ptr2 ≠ end2 then
      if ¬ within array [base + ptr1, base + ptr2] then .error ⟨Fault.bounds, array⟩
      else if ¬ within scratch [sptr] then .error ⟨Fault.bounds, array⟩
      else if (rd array (base + ptr1)).key < (rd array (base + ptr2)).key then
        merge_loop fuel array base end1 end2
          (scratch.set sptr (rd array (base + ptr1))) (sptr + 1) (ptr1 + 1) ptr2
      else
        merge_loop fuel array base end1 end2
          (scratch.set sptr (rd array (base + ptr2))) (sptr + 1) ptr1 (ptr2 + 1)
    else .ok (scratch, sptr, ptr1, ptr2)

/-- The bulk copy of the remainder of the unexhausted run that follows the loop of `merge`:
`if (ptr1 != end1) memcpy(..) else if (ptr2 != end2) memcpy(..)`; returns the scratch buffer. -/
def merge_rest (array : List record_t) (base end1 end2 : Nat) (scratch : List record_t)
    (sptr ptr1 ptr2 : Nat) : Except Abort (List record_t) :=
  if ptr1 ≠ end1 then
    if ¬ copy_within scratch sptr array (base + ptr1) (end1 - ptr1) then
      .error ⟨Fault.bounds, array⟩
    else .ok (memcpy scratch sptr array (base + ptr1) (end1 - ptr1))
  else if ptr2 ≠ end2 then
    if ¬ copy_within scratch sptr array (base + ptr2) (end2 - ptr2) then
      .error ⟨Fault.bounds, array⟩
    else .ok (memcpy scratch sptr array (base + ptr2) (end2 - ptr2))
  else .ok scratch

/-- The C source: `merge(&array[base], left, right, scratch)`; returns the array and the scratch
buffer as the call leaves them. -/
def merge (array : List record_t) (base left right : Nat) (scratch : List record_t) :
    Except Abort (List record_t × List record_t) :=
  let end1 := left
  let end2 := left + right
  match merge_loop (left + right + 1) array base end1 end2 scratch 0 0 left with
  | .error e => .error e
  | .ok (scratch, sptr, ptr1, ptr2) =>
    match merge_rest array base end1 end2 scratch sptr ptr1 ptr2 with
    | .error e => .error e
    | .ok scratch =>
      if ¬ copy_within array base scratch 0 (left + right) then .error ⟨Fault.bounds, array⟩
      else .ok (memcpy array base scratch 0 (left + right), scratch)

/-- The loop `for (index = 0; index + span < length; index += 2 * span)` of `merge_sort`. -/
def merge_sort_pass : Nat → List record_t → Nat → Nat → List record_t → Nat →
    Except Abort (List record_t × List record_t)
  | 0, array, _, _, _, _ => .error ⟨Fault.fuel, array⟩
  | fuel + 1, array, length, span, scratch, index =>
    if index + span < length then
      let left_len := span
      let right_len := MIN span (length - (index + left_len))
      match merge array index left_len right_len scratch with
      | .ok (array, scratch) => merge_sort_pass fuel array length span scratch (index + 2 * span)
      | .error e => .error e
    else .ok (array, scratch)

/-- The loop `for (span = 1; span < length; span *= 2)` of `merge_sort`. -/
def merge_sort_loop : Nat → List record_t → Nat → List record_t → Nat →
    Except Abort (List record_t)
  | 0, array, _, _, _ => .error ⟨Fault.fuel, array⟩
  | fuel + 1, array, length, scratch, span =>
    if span < length then
      match merge_sort_pass (length + 1) array length span scratch 0 with
      | .ok (array, scratch) => merge_sort_loop fuel array length scratch (span * 2)
      | .error e => .error e
    else .ok array

/-- The C source: `void merge_sort(record_t *array, size_t length)`, on the path where `calloc`
returns the zero-filled scratch buffer (on the other path the process exits). -/
def merge_sort (array : List record_t) (length : Nat) : Except Abort (List record_t) :=
  let scratch := List.replicate length (⟨0, 0⟩ : record_t)
  merge_sort_loop (length + 1) array length scratch 1

/-- The C source: `void merge_sort(record_t *array, size_t length)` with what `calloc` returns
as a parameter: `none` is the NULL pointer, on which the code calls `exit(1)`; `some scratch`
is the buffer handed out. -/
def merge_sort_calloc (calloc : Option (List record_t)) (array : List record_t) (length : Nat) :
    Except Abort (List record_t) :=
  match calloc with
  | none => .error ⟨Fault.exit, array⟩
  | some scratch => merge_sort_loop (length + 1) array length scratch 1

/-- Calls of `heap_pop_max` with the heap sizes `n`, `n - 1`, ..., `1` in succession, each on
the array the call before left; returns the records popped, in the order of the calls. -/
def pop_all : List record_t → Nat → Except Abort (List record_t)
  | _, 0 => .ok []
  | array, n + 1 =>
    match heap_pop_max array (n + 1) with
    | .error e => .error e
    | .ok (max, array) =>
      match pop_all array n with
      | .error e => .error e
      | .ok rest => .ok (max :: rest)

/-- Records with the given keys, the payload of each being its index in the input. -/
def tagged (keys : List Int) : List record_t :=
  (List.range keys.length).zipWith (fun i k => ⟨k, i⟩) keys

/-- The keys of the records of an array. -/
def keys (array : List record_t) : List Int := array.map record_t.key

/-! ## Predicates and list-level functions used in the statements and proofs -/

/-- Key of the record at the 1-based heap position `p`. -/
def key_at (a : List record_t) (p : Nat) : Int := (rd a (p - 1)).key

/-- Every position `c ≤ n` whose parent is at `lo` or later is dominated by its parent. -/
def heap_from (a : List record_t) (n lo : Nat) : Prop :=
  ∀ c, c ≤ n → lo ≤ c / 2 → key_at a c ≤ key_at a (c / 2)

/-- The heap order from `lo` on, except possibly between `i` and its children, which are
however dominated by the parent of `i`. -/
def heap_except (a : List record_t) (n lo i : Nat) : Prop :=
  (∀ c, c ≤ n → lo ≤ c / 2 → c / 2 ≠ i → key_at a c ≤ key_at a (c / 2)) ∧
  (∀ c, c ≤ n → c / 2 = i → lo ≤ i / 2 → key_at a c ≤ key_at a (i / 2))

/-- The array `b` holds in its first `n` slots a rearrangement of the first `n` slots of `a`
and agrees with `a` everywhere else. -/
def rearranges (a b : List record_t) (n : Nat) : Prop :=
  b.length = a.length ∧ (b.take n).Perm (a.take n) ∧ b.drop n = a.drop n

/-- Each slot `j` with `m ≤ j < N` holds a key at least as large as every key before it. -/
def tail_ok (a : List record_t) (m N : Nat) : Prop :=
  ∀ j, m ≤ j → j < N → ∀ x ∈ a.take j, x.key ≤ (rd a j).key

/-- The order of records by key. -/
def key_le (x y : record_t) : Prop := x.key ≤ y.key

/-- The first `n` slots are in non-decreasing key order: `key[i] <= key[i+1]`. -/
def sorted_slots (a : List record_t) (n : Nat) : Prop :=
  ∀ i, i + 1 < n → (rd a i).key ≤ (rd a (i + 1)).key

instance key_le_trans : IsTrans record_t key_le :=
  ⟨fun _ _ _ h1 h2 => Int.le_trans h1 h2⟩

/-- The strict order of records by key. -/
def key_lt (x y : record_t) : Prop := x.key < y.key

/-- The first `n` slots are in strictly increasing key order. -/
def strict_slots (a : List record_t) (n : Nat) : Prop :=
  ∀ i, i + 1 < n → (rd a i).key < (rd a (i + 1)).key

instance key_lt_trans : IsTrans record_t key_lt :=
  ⟨fun _ _ _ h1 h2 => Int.lt_trans h1 h2⟩

instance key_lt_antisymm : IsAntisymm record_t key_lt :=
  ⟨fun _ _ h1 h2 => absurd h1 (Int.not_lt.2 (Int.le_of_lt h2))⟩

/-- The list-level merge that `merge` performs on two runs: the left head is taken only when
its key is strictly smaller, otherwise the right head is taken. -/
def merge_runs : List record_t → List record_t → List record_t
  | [], r => r
  | x :: l, [] => x :: l
  | x :: l, y :: r =>
    if x.key < y.key then x :: merge_runs l (y :: r) else y :: merge_runs (x :: l) r
termination_by l r => l.length + r.length

/-- The max-heap invariant on the first `n` slots: for every 1-based position `i` with
`2 ≤ i ≤ n` the key at position `i / 2` is at least the key at position `i`. -/
def max_heap (a : List record_t) (n : Nat) : Prop :=
  ∀ i, i < n + 1 → 2 ≤ i → (rd a (i / 2 - 1)).key ≥ (rd a (i - 1)).key

instance max_heap_decidable (a : List record_t) (n : Nat) : Decidable (max_heap a n) :=
  Nat.decidableBallLT (n + 1) (fun i _ => 2 ≤ i → (rd a (i / 2 - 1)).key ≥ (rd a (i - 1)).key)

/-- Position `j` lies in the subtree rooted at position `i`: halving `j` some number of times
gives `i`. -/
def in_subtree (i j : Nat) : Prop := ∃ k, j / 2 ^ k = i

/-- The heap order on the first `n` positions, except possibly between `i` and its parent;
the children of `i` are however dominated by the parent of `i`. -/
def heap_up_except (a : List record_t) (n i : Nat) : Prop :=
  (∀ c, 2 ≤ c → c ≤ n → c ≠ i → key_at a c ≤ key_at a (c / 2)) ∧
  (∀ c, c ≤ n → c / 2 = i → 2 ≤ i → key_at a c ≤ key_at a (i / 2))

instance in_subtree_decidable (i j : Nat) : Decidable (in_subtree i j) :=
  decidable_of_iff (∃ k, k < j + 1 ∧ j / 2 ^ k = i) (by
    constructor
    · rintro ⟨k, _, h⟩
      exact ⟨k, h⟩
    · rintro ⟨k, h⟩
      by_cases hk : k < j + 1
      · exact ⟨k, hk, h⟩
      · refine ⟨j, by omega, ?_⟩
        have h1 : j < 2 ^ j := Nat.lt_two_pow j
        have h2 : 2 ^ j ≤ 2 ^ k := Nat.pow_le_pow_right (by omega) (by omega)
        rw [Nat.div_eq_of_lt h1]
        rw [Nat.div_eq_of_lt (by omega)] at h
        exact h)

/-- The heap order below the root `r` of a subtree, except possibly between `p` and its
children, which are however dominated by the parent of `p` when `p` is not the root. -/
def subtree_except (a : List record_t) (n r p : Nat) : Prop :=
  (∀ c, c ≤ n → in_subtree r (c / 2) → c / 2 ≠ p → key_at a c ≤ key_at a (c / 2)) ∧
  (∀ c, c ≤ n → c / 2 = p → p ≠ r → key_at a c ≤ key_at a (p / 2))

/-- The list is a sequence of sorted runs of length `s`, the last one possibly shorter. -/
inductive runs (s : Nat) : List record_t → Prop
  | short (l : List record_t) : l.length ≤ s → l.Pairwise key_le → runs s l
  | cons (c rest : List record_t) : c.length = s → c.Pairwise key_le → runs s rest →
      runs s (c ++ rest)

/-! ## Reading and writing slots -/

theorem rd_of_lt (a : List record_t) (i : Nat) (h : i < a.length) : rd a i = a[i] := by
  simp [rd, List.getD_eq_getElem?_getD, List.getElem?_eq_getElem h]

theorem rd_set_self (a : List record_t) (i : Nat) (x : record_t) (h : i < a.length) :
    rd (a.set i x) i = x := by
  simp [rd, List.getD_eq_getElem?_getD, List.getElem?_set, h]

theorem rd_set_ne (a : List record_t) (i j : Nat) (x : record_t) (h : i ≠ j) :
    rd (a.set i x) j = rd a j := by
  simp [rd, List.getD_eq_getElem?_getD, List.getElem?_set, h]

theorem rd_mem_take (a : List record_t) (i n : Nat) (h : i < n) (hn : n ≤ a.length) :
    rd a i ∈ a.take n := by
  rw [rd_of_lt a i (by omega), List.mem_take_iff_getElem]
  exact ⟨i, by simp; omega, rfl⟩

theorem exists_rd_of_mem_take (a : List record_t) (n : Nat) (x : record_t) (h : x ∈ a.take n) :
    ∃ i, i < n ∧ i < a.length ∧ rd a i = x := by
  rw [List.mem_take_iff_getElem] at h
  obtain ⟨i, hi, rfl⟩ := h
  have : i < n ∧ i < a.length := by simpa using hi
  exact ⟨i, this.1, this.2, rd_of_lt a i this.2⟩

theorem rd_eq_of_drop_eq (a b : List record_t) (n i : Nat) (h : a.drop n = b.drop n)
    (hi : n ≤ i) : rd a i = rd b i := by
  have h1 : (a.drop n)[i - n]? = (b.drop n)[i - n]? := by rw [h]
  simp only [List.getElem?_drop] at h1
  have h2 : n + (i - n) = i := by omega
  rw [h2] at h1
  simp [rd, List.getD_eq_getElem?_getD, h1]

/-! ## The range checks -/

theorem within_one (a : List record_t) (i : Nat) (h : i < a.length) : within a [i] := by
  intro j hj
  simp only [List.mem_singleton] at hj
  omega

theorem within_two (a : List record_t) (i j : Nat) (hi : i < a.length) (hj : j < a.length) :
    within a [i, j] := by
  intro k hk
  simp only [List.mem_cons, List.mem_singleton, List.not_mem_nil, or_false] at hk
  omega

theorem inside_one (a : List record_t) (p : Nat) (h1 : 1 ≤ p) (h2 : p ≤ a.length) :
    inside a [(p : Int)] := by
  intro q hq
  simp only [List.mem_singleton] at hq
  omega

theorem inside_two (a : List record_t) (p q : Nat) (hp1 : 1 ≤ p) (hp2 : p ≤ a.length)
    (hq1 : 1 ≤ q) (hq2 : q ≤ a.length) : inside a [(p : Int), (q : Int)] := by
  intro r hr
  simp only [List.mem_cons, List.mem_singleton, List.not_mem_nil, or_false] at hr
  omega

theorem copy_within_intro (dst : List record_t) (d : Nat) (src : List record_t) (s count : Nat)
    (h1 : d + count ≤ dst.length) (h2 : s + count ≤ src.length) :
    copy_within dst d src s count :=
  ⟨h1, h2⟩

/-! ## swap_records -/

theorem swap_records_eq (a : List record_t) (i j : Nat) (hi : i < a.length) (hj : j < a.length) :
    swap_records a i j = (a.set i (rd a j)).set j (rd a i) := by
  unfold swap_records set_key set_payload
  by_cases hij : i = j
  · subst hij
    simp [rd_set_self, hi]
  · simp [rd_set_self, rd_set_ne, hi, hj, hij, Ne.symm hij]

theorem swap_records_length (a : List record_t) (i j : Nat) :
    (swap_records a i j).length = a.length := by
  simp [swap_records, set_key, set_payload]

theorem rd_swap_records (a : List record_t) (i j k : Nat) (hi : i < a.length) (hj : j < a.length) :
    rd (swap_records a i j) k = if k = j then rd a i else if k = i then rd a j else rd a k := by
  rw [swap_records_eq a i j hi hj]
  by_cases hkj : k = j
  · subst hkj; simp [rd_set_self, hj]
  · rw [rd_set_ne _ _ _ _ (Ne.symm hkj), if_neg hkj]
    by_cases hki : k = i
    · subst hki; simp [rd_set_self, hi]
    · rw [rd_set_ne _ _ _ _ (Ne.symm hki), if_neg hki]

theorem perm_cons_set {α : Type} (t : List α) (j : Nat) (x : α) (h : j < t.length) :
    (t[j] :: t.set j x).Perm (x :: t) := by
  induction t generalizing j with
  | nil => simp at h
  | cons y t ih =>
    cases j with
    | zero => simpa using List.Perm.swap x y t
    | succ j =>
      have hj : j < t.length := by simpa using h
      simp only [List.getElem_cons_succ, List.set_cons_succ]
      exact (List.Perm.swap y t[j] (t.set j x)).trans
        (((ih j hj).cons y).trans (List.Perm.swap x y t))

theorem perm_set_set {α : Type} (a : List α) (i j : Nat) (hi : i < a.length) (hj : j < a.length) :
    ((a.set i a[j]).set j a[i]).Perm a := by
  induction a generalizing i j with
  | nil => simp at hi
  | cons y t ih =>
    cases i with
    | zero =>
      cases j with
      | zero => simp
      | succ j =>
        have hj' : j < t.length := by simpa using hj
        simpa using perm_cons_set t j y hj'
    | succ i =>
      have hi' : i < t.length := by simpa using hi
      cases j with
      | zero =>
        simp only [List.getElem_cons_zero, List.set_cons_succ, List.set_cons_zero,
          List.getElem_cons_succ]
        exact perm_cons_set t i y hi'
      | succ j =>
        have hj' : j < t.length := by simpa using hj
        simpa using ih i j hi' hj'

theorem swap_records_perm (a : List record_t) (i j : Nat) (hi : i < a.length) (hj : j < a.length) :
    (swap_records a i j).Perm a := by
  rw [swap_records_eq a i j hi hj, rd_of_lt a i hi, rd_of_lt a j hj]
  exact perm_set_set a i j hi hj

theorem swap_records_drop (a : List record_t) (i j n : Nat) (hi : i < n) (hj : j < n)
    (hn : n ≤ a.length) : (swap_records a i j).drop n = a.drop n := by
  rw [swap_records_eq a i j (by omega) (by omega)]
  rw [List.drop_set_of_lt _ _ hj, List.drop_set_of_lt _ _ hi]

theorem swap_records_take_perm (a : List record_t) (i j n : Nat) (hi : i < n) (hj : j < n)
    (hn : n ≤ a.length) : ((swap_records a i j).take n).Perm (a.take n) := by
  have h1 : (swap_records a i j).Perm a := swap_records_perm a i j (by omega) (by omega)
  have h2 := swap_records_drop a i j n hi hj hn
  have h3 : ((swap_records a i j).take n ++ (swap_records a i j).drop n).Perm
      (a.take n ++ a.drop n) := by
    rw [List.take_append_drop, List.take_append_drop]; exact h1
  rw [h2] at h3
  exact (List.perm_append_right_iff _).1 h3

/-- Widening a "prefix permuted, rest untouched" fact from `k` to `m ≥ k` slots. -/
theorem take_perm_mono (a b : List record_t) (k m : Nat) (hkm : k ≤ m)
    (hp : (a.take k).Perm (b.take k)) (hd : a.drop k = b.drop k) :
    (a.take m).Perm (b.take m) ∧ a.drop m = b.drop m := by
  obtain ⟨d, rfl⟩ := Nat.exists_eq_add_of_le hkm
  constructor
  · rw [List.take_add, List.take_add, hd]
    exact hp.append_right _
  · rw [← List.drop_drop, ← List.drop_drop, hd]

/-! ## heapify_max -/

theorem slot_cast (p : Nat) : slot (p : Int) = p - 1 := by
  simp only [slot, INDEX]; omega

/-- One unfolding of `heapify_max` at a position `p ≥ 1` of a heap inside the array, in terms
of natural numbers: no range check fails. -/
theorem heapify_max_fuel_succ (f : Nat) (a : List record_t) (n p : Nat) (hp : 1 ≤ p)
    (hn : n ≤ a.length) :
    heapify_max_fuel (f + 1) a n (p : Int) =
      if 2 * p ≤ n ∧ key_at a (2 * p) > key_at a p then
        if 2 * p + 1 ≤ n ∧ key_at a (2 * p + 1) > key_at a (2 * p) then
          heapify_max_fuel f (swap_records a (p - 1) (2 * p + 1 - 1)) n ((2 * p + 1 : Nat) : Int)
        else
          heapify_max_fuel f (swap_records a (p - 1) (2 * p - 1)) n ((2 * p : Nat) : Int)
      else
        if 2 * p + 1 ≤ n ∧ key_at a (2 * p + 1) > key_at a p then
          heapify_max_fuel f (swap_records a (p - 1) (2 * p + 1 - 1)) n ((2 * p + 1 : Nat) : Int)
        else .ok a := by
  have hp0 : ((p : Int) > 0) := by omega
  have hlc : LEFT (p : Int) = ((2 * p : Nat) : Int) := by simp only [LEFT]; push_cast; ring
  have hrc : RIGHT (p : Int) = ((2 * p + 1 : Nat) : Int) := by simp only [RIGHT]; push_cast; ring
  have hlp : ¬ (2 * p = p) := by omega
  have hrp : ¬ (2 * p + 1 = p) := by omega
  have g1 : ¬ (2 * p ≤ n ∧ ¬ inside a [((2 * p : Nat) : Int), (p : Int)]) :=
    fun h => h.2 (inside_two a (2 * p) p (by omega) (by omega) hp (by omega))
  have g2 : ¬ (2 * p + 1 ≤ n ∧ ¬ inside a [((2 * p + 1 : Nat) : Int), ((2 * p : Nat) : Int)]) :=
    fun h => h.2 (inside_two a (2 * p + 1) (2 * p) (by omega) (by omega) (by omega) (by omega))
  have g3 : ¬ (2 * p + 1 ≤ n ∧ ¬ inside a [((2 * p + 1 : Nat) : Int), (p : Int)]) :=
    fun h => h.2 (inside_two a (2 * p + 1) p (by omega) (by omega) hp (by omega))
  rw [heapify_max_fuel]
  simp only [hp0, not_true_eq_false, if_false, hlc, hrc, slot_cast, Nat.cast_le, key_at]
  rw [if_neg g1]
  by_cases c1 : 2 * p ≤ n ∧ (rd a (2 * p - 1)).key > (rd a (p - 1)).key
  · simp only [c1, and_self, if_true]
    rw [if_neg g2]
    by_cases c2 : 2 * p + 1 ≤ n ∧ (rd a (2 * p + 1 - 1)).key > (rd a (2 * p - 1)).key
    · have g : ¬ ¬ inside a [(p : Int), ((2 * p + 1 : Nat) : Int)] :=
        not_not.2 (inside_two a p (2 * p + 1) hp (by omega) (by omega) (by omega))
      simp only [slot_cast, c2, and_self, if_true, ne_eq, Nat.cast_inj, hrp, not_false_eq_true]
      rw [if_neg g]
    · have g : ¬ ¬ inside a [(p : Int), ((2 * p : Nat) : Int)] :=
        not_not.2 (inside_two a p (2 * p) hp (by omega) (by omega) (by omega))
      simp only [slot_cast, c2, if_false, ne_eq, Nat.cast_inj, hlp, not_false_eq_true, if_true]
      rw [if_neg g]
  · simp only [c1, if_false]
    rw [if_neg g3]
    by_cases c2 : 2 * p + 1 ≤ n ∧ (rd a (2 * p + 1 - 1)).key > (rd a (p - 1)).key
    · have g : ¬ ¬ inside a [(p : Int), ((2 * p + 1 : Nat) : Int)] :=
        not_not.2 (inside_two a p (2 * p + 1) hp (by omega) (by omega) (by omega))
      simp only [slot_cast, c2, and_self, if_true, ne_eq, Nat.cast_inj, hrp, not_false_eq_true]
      rw [if_neg g]
    · simp only [slot_cast, c2, if_false, ne_eq, not_true_eq_false]

theorem rearranges_refl (a : List record_t) (n : Nat) : rearranges a a n :=
  ⟨rfl, List.Perm.refl _, rfl⟩

theorem rearranges_trans {a b c : List record_t} {n : Nat} (h1 : rearranges a b n)
    (h2 : rearranges b c n) : rearranges a c n :=
  ⟨h2.1.trans h1.1, h2.2.1.trans h1.2.1, h2.2.2.trans h1.2.2⟩

theorem rearranges_mono {a b : List record_t} {k m : Nat} (hkm : k ≤ m)
    (h : rearranges a b k) : rearranges a b m :=
  ⟨h.1, (take_perm_mono b a k m hkm h.2.1 h.2.2).1, (take_perm_mono b a k m hkm h.2.1 h.2.2).2⟩

theorem rearranges_swap (a : List record_t) (i j n : Nat) (hi : i < n) (hj : j < n)
    (hn : n ≤ a.length) : rearranges a (swap_records a i j) n :=
  ⟨swap_records_length a i j, swap_records_take_perm a i j n hi hj hn,
    swap_records_drop a i j n hi hj hn⟩

theorem key_at_swap (a : List record_t) (p q c : Nat) (hp : 1 ≤ p) (hq : 1 ≤ q) (hc : 1 ≤ c)
    (hpl : p ≤ a.length) (hql : q ≤ a.length) :
    key_at (swap_records a (p - 1) (q - 1)) c =
      if c = q then key_at a p else if c = p then key_at a q else key_at a c := by
  unfold key_at
  rw [rd_swap_records a (p - 1) (q - 1) (c - 1) (by omega) (by omega)]
  have e1 : (c - 1 = q - 1) ↔ c = q := by omega
  have e2 : (c - 1 = p - 1) ↔ c = p := by omega
  simp only [e1, e2]
  split_ifs <;> rfl

/-- Swapping `p` with its largest child `l` moves the possible defect from `p` to `l`. -/
theorem heap_except_swap (a : List record_t) (n lo p l : Nat) (hlo : 1 ≤ lo) (hlop : lo ≤ p)
    (hl : l = 2 * p ∨ l = 2 * p + 1) (hln : l ≤ n) (hn : n ≤ a.length)
    (hex : heap_except a n lo p) (hgt : key_at a p < key_at a l)
    (hsib : ∀ c, c ≤ n → c / 2 = p → key_at a c ≤ key_at a l) :
    heap_except (swap_records a (p - 1) (l - 1)) n lo l := by
  have hl2 : l / 2 = p := by omega
  constructor
  · intro c hcn hc hcl
    rw [key_at_swap a p l c (by omega) (by omega) (by omega) (by omega) (by omega),
      key_at_swap a p l (c / 2) (by omega) (by omega) (by omega) (by omega) (by omega)]
    rw [if_neg hcl]
    by_cases h1 : c = l
    · subst h1
      rw [if_pos rfl, if_pos hl2]
      exact le_of_lt hgt
    · rw [if_neg h1]
      by_cases h2 : c = p
      · subst h2
        rw [if_pos rfl, if_neg (by omega)]
        exact hex.2 l hln hl2 hc
      · rw [if_neg h2]
        by_cases h3 : c / 2 = p
        · rw [if_pos h3]
          exact hsib c hcn h3
        · rw [if_neg h3]
          exact hex.1 c hcn hc h3
  · intro c hcn hc hlo2
    rw [key_at_swap a p l c (by omega) (by omega) (by omega) (by omega) (by omega),
      key_at_swap a p l (l / 2) (by omega) (by omega) (by omega) (by omega) (by omega)]
    rw [if_neg (by omega), if_neg (by omega), if_neg (by omega), if_pos hl2]
    have h := hex.1 c hcn (by omega) (by omega)
    rwa [hc] at h

/-- Specification of `heapify_max`: with enough budget it returns, rearranging only the first
`heap_size` slots, and it repairs a heap whose only defect is at `p`. -/
theorem heapify_max_fuel_spec (n lo : Nat) (hlo : 1 ≤ lo) :
    ∀ (f : Nat) (a : List record_t) (p : Nat), n < f + p → 0 < f → lo ≤ p → n ≤ a.length →
      heap_except a n lo p →
      ∃ b, heapify_max_fuel f a n (p : Int) = .ok b ∧ rearranges a b n ∧ heap_from b n lo := by
  intro f
  induction f with
  | zero => intro a p _ h0; omega
  | succ f ih =>
    intro a p hf _ hlop hn hex
    have hp : 1 ≤ p := by omega
    rw [heapify_max_fuel_succ f a n p hp hn]
    -- the recursive call after swapping with the child `l`
    have step : ∀ l, (l = 2 * p ∨ l = 2 * p + 1) → l ≤ n → key_at a p < key_at a l →
        (∀ c, c ≤ n → c / 2 = p → key_at a c ≤ key_at a l) →
        ∃ b, heapify_max_fuel f (swap_records a (p - 1) (l - 1)) n (l : Int) = .ok b ∧
          rearranges a b n ∧ heap_from b n lo := by
      intro l hl hln hgt hsib
      have hex2 := heap_except_swap a n lo p l hlo hlop hl hln hn hex hgt hsib
      obtain ⟨b, hb, hr, hh⟩ := ih (swap_records a (p - 1) (l - 1)) l (by omega) (by omega)
        (by omega) (by rw [swap_records_length]; exact hn) hex2
      exact ⟨b, hb, rearranges_trans
        (rearranges_swap a (p - 1) (l - 1) n (by omega) (by omega) hn) hr, hh⟩
    have child : ∀ c, c / 2 = p → c = 2 * p ∨ c = 2 * p + 1 := by intro c hc; omega
    by_cases c1 : 2 * p ≤ n ∧ key_at a (2 * p) > key_at a p
    · rw [if_pos c1]
      by_cases c2 : 2 * p + 1 ≤ n ∧ key_at a (2 * p + 1) > key_at a (2 * p)
      · rw [if_pos c2]
        refine step (2 * p + 1) (Or.inr rfl) c2.1 (lt_trans c1.2 c2.2) ?_
        intro c _ hc
        rcases child c hc with rfl | rfl
        · exact le_of_lt c2.2
        · exact le_refl _
      · rw [if_neg c2]
        refine step (2 * p) (Or.inl rfl) c1.1 c1.2 ?_
        intro c hcn hc
        rcases child c hc with rfl | rfl
        · exact le_refl _
        · exact not_lt.1 (fun h => c2 ⟨hcn, h⟩)
    · rw [if_neg c1]
      by_cases c2 : 2 * p + 1 ≤ n ∧ key_at a (2 * p + 1) > key_at a p
      · rw [if_pos c2]
        refine step (2 * p + 1) (Or.inr rfl) c2.1 c2.2 ?_
        intro c hcn hc
        rcases child c hc with rfl | rfl
        · exact le_trans (not_lt.1 (fun h => c1 ⟨by omega, h⟩)) (le_of_lt c2.2)
        · exact le_refl _
      · rw [if_neg c2]
        refine ⟨a, rfl, rearranges_refl a n, ?_⟩
        intro c hcn hc
        by_cases h3 : c / 2 = p
        · rw [h3]
          rcases child c h3 with rfl | rfl
          · exact not_lt.1 (fun h => c1 ⟨hcn, h⟩)
          · exact not_lt.1 (fun h => c2 ⟨hcn, h⟩)
        · exact hex.1 c hcn hc h3

theorem heapify_max_spec (a : List record_t) (n lo p : Nat) (hlo : 1 ≤ lo) (hlop : lo ≤ p)
    (hn : n ≤ a.length) (hex : heap_except a n lo p) :
    ∃ b, heapify_max a n (p : Int) = .ok b ∧ rearranges a b n ∧ heap_from b n lo :=
  heapify_max_fuel_spec n lo hlo (n + 1) a p (by omega) (by omega) hlop hn hex

/-- On any array `heapify_max` at a position `p ≥ 1` returns within its budget, and it only
rearranges the first `heap_size` slots. -/
theorem heapify_max_fuel_returns (n : Nat) :
    ∀ (f : Nat) (a : List record_t) (p : Nat), n < f + p → 0 < f → 1 ≤ p → n ≤ a.length →
      ∃ b, heapify_max_fuel f a n (p : Int) = .ok b ∧ rearranges a b n := by
  intro f
  induction f with
  | zero => intro a p _ h0; omega
  | succ f ih =>
    intro a p hf _ hp hn
    rw [heapify_max_fuel_succ f a n p hp hn]
    have step : ∀ l, (l = 2 * p ∨ l = 2 * p + 1) → l ≤ n →
        ∃ b, heapify_max_fuel f (swap_records a (p - 1) (l - 1)) n (l : Int) = .ok b ∧
          rearranges a b n := by
      intro l hl hln
      obtain ⟨b, hb, hr⟩ := ih (swap_records a (p - 1) (l - 1)) l (by omega) (by omega)
        (by omega) (by rw [swap_records_length]; exact hn)
      exact ⟨b, hb, rearranges_trans
        (rearranges_swap a (p - 1) (l - 1) n (by omega) (by omega) hn) hr⟩
    by_cases c1 : 2 * p ≤ n ∧ key_at a (2 * p) > key_at a p
    · rw [if_pos c1]
      by_cases c2 : 2 * p + 1 ≤ n ∧ key_at a (2 * p + 1) > key_at a (2 * p)
      · rw [if_pos c2]
        exact step (2 * p + 1) (Or.inr rfl) c2.1
      · rw [if_neg c2]
        exact step (2 * p) (Or.inl rfl) c1.1
    · rw [if_neg c1]
      by_cases c2 : 2 * p + 1 ≤ n ∧ key_at a (2 * p + 1) > key_at a p
      · rw [if_pos c2]
        exact step (2 * p + 1) (Or.inr rfl) c2.1
      · rw [if_neg c2]
        exact ⟨a, rfl, rearranges_refl a n⟩

theorem heapify_max_returns (a : List record_t) (n p : Nat) (hp : 1 ≤ p) (hn : n ≤ a.length) :
    ∃ b, heapify_max a n (p : Int) = .ok b ∧ rearranges a b n :=
  heapify_max_fuel_returns n (n + 1) a p (by omega) (by omega) hp hn

/-! ## max_heap_build and heapsort_max -/

theorem max_heap_build_loop_spec (n : Nat) :
    ∀ (index : Nat) (a : List record_t), n ≤ a.length → heap_from a n (index + 1) →
      ∃ b, max_heap_build_loop a n index = .ok b ∧ rearranges a b n ∧ heap_from b n 1 := by
  intro index
  induction index with
  | zero =>
    intro a _ hh
    exact ⟨a, by rw [max_heap_build_loop], rearranges_refl a n, hh⟩
  | succ index ih =>
    intro a hn hh
    have hex : heap_except a n (index + 1) (index + 1) := by
      constructor
      · intro c hcn hc hne
        exact hh c hcn (by omega)
      · intro c _ _ h
        omega
    obtain ⟨b1, hb1, hr1, hh1⟩ :=
      heapify_max_spec a n (index + 1) (index + 1) (by omega) (le_refl _) hn hex
    obtain ⟨b, hb, hr, hhb⟩ := ih b1 (by rw [hr1.1]; exact hn) hh1
    refine ⟨b, ?_, rearranges_trans hr1 hr, hhb⟩
    rw [max_heap_build_loop, hb1]
    exact hb

theorem max_heap_build_spec (a : List record_t) (n : Nat) (hn : n ≤ a.length) :
    ∃ b, max_heap_build a n = .ok b ∧ rearranges a b n ∧ heap_from b n 1 := by
  apply max_heap_build_loop_spec n (n / 2) a hn
  intro c hcn hc
  omega

/-- In a max heap the root dominates every position. -/
theorem heap_root_max (a : List record_t) (n : Nat) (hh : heap_from a n 1) :
    ∀ c, 1 ≤ c → c ≤ n → key_at a c ≤ key_at a 1 := by
  intro c
  induction c using Nat.strong_induction_on with
  | _ c ih =>
    intro h1 hcn
    by_cases hc : c = 1
    · subst hc; exact le_refl _
    · have h2 : 1 ≤ c / 2 := by omega
      exact le_trans (hh c hcn h2) (ih (c / 2) (by omega) h2 (by omega))

theorem slot_one : slot 1 = 0 := by
  simp [slot, INDEX]

theorem sorted_of_tail_ok (a : List record_t) (m N : Nat) (hm : m ≤ 1) (hN : N ≤ a.length)
    (ht : tail_ok a m N) : ∀ i, i + 1 < N → (rd a i).key ≤ (rd a (i + 1)).key := by
  intro i hi
  exact ht (i + 1) (by omega) hi (rd a i) (rd_mem_take a i (i + 1) (by omega) (by omega))

theorem heapsort_max_loop_spec (N : Nat) :
    ∀ (m : Nat) (a : List record_t), m ≤ N → N ≤ a.length → heap_from a m 1 → tail_ok a m N →
      ∃ b, heapsort_max_loop a m = .ok b ∧ rearranges a b m ∧
        ∀ i, i + 1 < N → (rd b i).key ≤ (rd b (i + 1)).key := by
  intro m
  induction m with
  | zero =>
    intro a _ hN _ ht
    exact ⟨a, by rw [heapsort_max_loop], rearranges_refl a 0,
      sorted_of_tail_ok a 0 N (by omega) hN ht⟩
  | succ m ih =>
    intro a hm hN hh ht
    rw [heapsort_max_loop]
    by_cases h1 : m + 1 > 1
    · rw [if_pos h1]
      have hg : inside a [1, ((m + 1 : Nat) : Int)] := by
        have := inside_two a 1 (m + 1) (by omega) (by omega) (by omega) (by omega)
        rw [Nat.cast_one] at this
        exact this
      rw [if_neg (not_not.2 hg)]
      simp only [slot_one, slot_cast, Nat.add_sub_cancel]
      have hsw : rearranges a (swap_records a 0 m) (m + 1) :=
        rearranges_swap a 0 m (m + 1) (by omega) (by omega) (by omega)
      have hex : heap_except (swap_records a 0 m) m 1 1 := by
        constructor
        · intro c hcn hc hne
          have e := key_at_swap a 1 (m + 1) c (by omega) (by omega) (by omega) (by omega)
            (by omega)
          have e2 := key_at_swap a 1 (m + 1) (c / 2) (by omega) (by omega) (by omega) (by omega)
            (by omega)
          simp only [Nat.sub_self, Nat.add_sub_cancel] at e e2
          rw [e, e2, if_neg (by omega), if_neg (by omega), if_neg (by omega), if_neg hne]
          exact hh c (by omega) hc
        · intro c _ _ h
          omega
      obtain ⟨b1, hb1, hr1, hh1⟩ := heapify_max_spec (swap_records a 0 m) m 1 1 (le_refl _)
        (le_refl _) (by rw [swap_records_length]; omega) hex
      rw [Nat.cast_one] at hb1
      rw [hb1]
      have hr1' : rearranges a b1 (m + 1) :=
        rearranges_trans hsw (rearranges_mono (Nat.le_succ m) hr1)
      have hroot : rd b1 m = rd a 0 := by
        rw [rd_eq_of_drop_eq b1 (swap_records a 0 m) m m hr1.2.2 (le_refl _),
          rd_swap_records a 0 m m (by omega) (by omega), if_pos rfl]
      have ht1 : tail_ok b1 m N := by
        intro j hmj hjN x hx
        by_cases hj : j = m
        · subst hj
          rw [hroot]
          have hx1 : x ∈ (swap_records a 0 j).take j := (hr1.2.1.mem_iff).1 hx
          obtain ⟨i, hij, _, rfl⟩ := exists_rd_of_mem_take _ _ _ hx1
          rw [rd_swap_records a 0 j i (by omega) (by omega), if_neg (by omega)]
          have hmax := heap_root_max a (j + 1) hh
          by_cases hi0 : i = 0
          · rw [if_pos hi0]
            have := hmax (j + 1) (by omega) (le_refl _)
            simpa [key_at] using this
          · rw [if_neg hi0]
            have := hmax (i + 1) (by omega) (by omega)
            simpa [key_at] using this
        · have hjm : m + 1 ≤ j := by omega
          have hrj := rearranges_mono hjm hr1'
          rw [rd_eq_of_drop_eq b1 a (m + 1) j hr1'.2.2 hjm]
          exact ht j hjm hjN x ((hrj.2.1.mem_iff).1 hx)
      obtain ⟨b, hb, hr, hs⟩ := ih b1 (by omega) (by rw [hr1.1, swap_records_length]; exact hN)
        hh1 ht1
      exact ⟨b, hb, rearranges_trans hr1' (rearranges_mono (Nat.le_succ m) hr), hs⟩
    · rw [if_neg h1]
      exact ⟨a, rfl, rearranges_refl a _, sorted_of_tail_ok a (m + 1) N (by omega) hN ht⟩

/-- Full specification of `heapsort_max`. -/
theorem heapsort_max_spec (a : List record_t) (n : Nat) (hn : n ≤ a.length) :
    ∃ b, heapsort_max a n = .ok b ∧ rearranges a b n ∧
      ∀ i, i + 1 < n → (rd b i).key ≤ (rd b (i + 1)).key := by
  obtain ⟨b1, hb1, hr1, hh1⟩ := max_heap_build_spec a n hn
  have ht : tail_ok b1 n n := by
    intro j h1 h2; omega
  obtain ⟨b, hb, hr, hs⟩ := heapsort_max_loop_spec n n b1 (le_refl _) (by rw [hr1.1]; exact hn)
    hh1 ht
  refine ⟨b, ?_, rearranges_trans hr1 hr, hs⟩
  rw [heapsort_max, hb1]
  exact hb

/-! ## insertion_sort -/

/-- A transitive relation holds between neighbouring slots exactly when it holds pairwise. -/
theorem slots_pairwise_iff (R : record_t → record_t → Prop) [IsTrans record_t R]
    (a : List record_t) (n : Nat) (hn : n ≤ a.length) :
    (∀ i, i + 1 < n → R (rd a i) (rd a (i + 1))) ↔ (a.take n).Pairwise R := by
  rw [← List.chain'_iff_pairwise, List.chain'_iff_get]
  have hlen : (a.take n).length = n := List.length_take_of_le hn
  constructor
  · intro h i hi
    have hi' : i + 1 < n := by omega
    have := h i hi'
    rw [rd_of_lt a i (by omega), rd_of_lt a (i + 1) (by omega)] at this
    simpa [List.getElem_take] using this
  · intro h i hi
    have := h i (by omega)
    rw [rd_of_lt a i (by omega), rd_of_lt a (i + 1) (by omega)]
    simpa [List.getElem_take] using this

theorem sorted_slots_iff (a : List record_t) (n : Nat) (hn : n ≤ a.length) :
    sorted_slots a n ↔ (a.take n).Pairwise key_le :=
  slots_pairwise_iff key_le a n hn

theorem strict_slots_iff (a : List record_t) (n : Nat) (hn : n ≤ a.length) :
    strict_slots a n ↔ (a.take n).Pairwise key_lt :=
  slots_pairwise_iff key_lt a n hn

theorem set_length_append (P S : List record_t) (x y : record_t) :
    (P ++ x :: S).set P.length y = P ++ y :: S := by
  rw [List.set_append_right _ _ (le_refl _), Nat.sub_self, List.set_cons_zero]

theorem rd_length_append (P S : List record_t) (x : record_t) :
    rd (P ++ x :: S) P.length = x := by
  rw [rd_of_lt (P ++ x :: S) P.length (by simp), List.getElem_append_right (le_refl _)]
  simp

/-- The inner loop of `insertion_sort` followed by `array[index] = target`: the prefix `P`
before the cursor splits as `A ++ B`, the keys of `B` are all greater than the target's, the
last record of `A` is not, and the target lands between the two. -/
theorem insertion_shift_spec (t : record_t) (P : List record_t) :
    ∀ (x : record_t) (S : List record_t), ∃ A B arr idx, P = A ++ B ∧
      insertion_shift t (P ++ x :: S) P.length = .ok (arr, idx) ∧ idx < arr.length ∧
      arr.set idx t = A ++ t :: B ++ S ∧
      (∀ y ∈ B, t.key < y.key) ∧ (∀ y, A.getLast? = some y → y.key ≤ t.key) := by
  induction P using List.reverseRecOn with
  | nil =>
    intro x S
    refine ⟨[], [], x :: S, 0, rfl, ?_, by simp, ?_, by simp, by simp⟩
    · simp [insertion_shift]
    · simp
  | append_singleton P b ih =>
    intro x S
    have hlen : (P ++ [b]).length = P.length + 1 := by simp
    have harr : P ++ [b] ++ x :: S = P ++ b :: (x :: S) := by simp
    rw [hlen, insertion_shift, harr,
      if_neg (not_not.2 (within_one (P ++ b :: x :: S) P.length (by simp))), rd_length_append]
    by_cases hb : b.key > t.key
    · rw [if_pos hb,
        if_neg (not_not.2 (within_one (P ++ b :: x :: S) (P.length + 1) (by simp)))]
      have hset : (P ++ b :: x :: S).set (P.length + 1) b = P ++ b :: (b :: S) := by
        simp
      rw [hset]
      obtain ⟨A, B, arr, idx, hP, hrun, hidx, hres, hB, hA⟩ := ih b (b :: S)
      refine ⟨A, B ++ [b], arr, idx, by rw [hP]; simp, hrun, hidx, ?_, ?_, hA⟩
      · rw [hres]; simp
      · intro y hy
        rcases List.mem_append.1 hy with h | h
        · exact hB y h
        · have : y = b := by simpa using h
          rw [this]; exact hb
    · rw [if_neg hb]
      refine ⟨P ++ [b], [], P ++ b :: x :: S, P.length + 1, by simp, rfl, by simp, ?_,
        by simp, ?_⟩
      · simp
      · intro y hy
        rw [List.getLast?_concat] at hy
        have : b = y := by simpa using hy
        rw [← this]; exact not_lt.1 hb

theorem split_at_slot (a : List record_t) (c : Nat) (hc : c < a.length) :
    a = a.take c ++ rd a c :: a.drop (c + 1) ∧ (a.take c).length = c := by
  constructor
  · rw [rd_of_lt a c hc, ← List.drop_eq_getElem_cons hc, List.take_append_drop]
  · exact List.length_take_of_le (le_of_lt hc)

theorem key_le_of_getLast (A : List record_t) (z : record_t) (hs : A.Pairwise key_le)
    (hz : A.getLast? = some z) : ∀ y ∈ A, y.key ≤ z.key := by
  induction A using List.reverseRecOn with
  | nil => simp at hz
  | append_singleton A w _ =>
    rw [List.getLast?_concat] at hz
    have hw : w = z := by simpa using hz
    subst hw
    intro y hy
    rcases List.mem_append.1 hy with h | h
    · exact (List.pairwise_append.1 hs).2.2 y h w (by simp)
    · have : y = w := by simpa using h
      rw [this]

/-- One round of the outer loop of `insertion_sort`: the sorted prefix grows by one slot. -/
theorem insertion_round (a : List record_t) (c : Nat) (hc : c < a.length)
    (hs : (a.take c).Pairwise key_le) :
    ∃ arr idx, insertion_shift (rd a c) a c = .ok (arr, idx) ∧ idx < arr.length ∧
      rearranges a (arr.set idx (rd a c)) (c + 1) ∧
      ((arr.set idx (rd a c)).take (c + 1)).Pairwise key_le := by
  obtain ⟨hsplit, hlen⟩ := split_at_slot a c hc
  obtain ⟨A, B, arr, idx, hP, hrun, hidx, hres, hB, hA⟩ :=
    insertion_shift_spec (rd a c) (a.take c) (rd a c) (a.drop (c + 1))
  rw [hlen, ← hsplit] at hrun
  refine ⟨arr, idx, hrun, hidx, ?_⟩
  rw [hres]
  have hAB : A.length + B.length = c := by
    rw [← hlen, hP]; simp
  have htake : (A ++ rd a c :: B ++ a.drop (c + 1)).take (c + 1) = A ++ rd a c :: B := by
    apply List.take_left'
    simp; omega
  have hdrop : (A ++ rd a c :: B ++ a.drop (c + 1)).drop (c + 1) = a.drop (c + 1) := by
    apply List.drop_left'
    simp; omega
  have htake0 : a.take (c + 1) = A ++ B ++ [rd a c] := by
    rw [← hP, List.take_succ, List.getElem?_eq_getElem hc, rd_of_lt a c hc]
    rfl
  have hlen1 : (A ++ rd a c :: B ++ a.drop (c + 1)).length = a.length := by
    simp only [List.length_append, List.length_cons, List.length_drop]
    omega
  refine ⟨⟨hlen1, ?_, hdrop⟩, ?_⟩
  · rw [htake, htake0]
    have : (A ++ rd a c :: B).Perm (rd a c :: (A ++ B)) := List.perm_middle
    exact this.trans ((List.perm_append_singleton (rd a c) (A ++ B)).symm)
  · rw [htake]
    rw [hP] at hs
    obtain ⟨hsA, hsB, hAB'⟩ := List.pairwise_append.1 hs
    rw [List.pairwise_append]
    refine ⟨hsA, List.pairwise_cons.2 ⟨fun y hy => le_of_lt (hB y hy), hsB⟩, ?_⟩
    intro y hy z hz
    rcases List.mem_cons.1 hz with h | h
    · rw [h]
      cases hl : A.getLast? with
      | none =>
        rw [List.getLast?_eq_none_iff] at hl
        rw [hl] at hy
        simp at hy
      | some w => exact le_trans (key_le_of_getLast A w hsA hl y hy) (hA w hl)
    · exact hAB' y hy z h

theorem insertion_sort_loop_spec (n : Nat) :
    ∀ (fuel : Nat) (a : List record_t) (c : Nat), n < fuel + c → 0 < fuel → n ≤ a.length →
      (a.take c).Pairwise key_le →
      ∃ b, insertion_sort_loop fuel a n c = .ok b ∧ rearranges a b n ∧
        (b.take n).Pairwise key_le := by
  intro fuel
  induction fuel with
  | zero => intro a c _ h; omega
  | succ fuel ih =>
    intro a c hf _ hn hs
    rw [insertion_sort_loop]
    by_cases hc : c < n
    · rw [if_pos hc, if_neg (not_not.2 (within_one a c (by omega)))]
      obtain ⟨arr, idx, hrun, hidx, hr, hs1⟩ := insertion_round a c (by omega) hs
      dsimp only
      rw [hrun]
      dsimp only
      rw [if_neg (not_not.2 (within_one arr idx hidx))]
      obtain ⟨b, hb, hrb, hsb⟩ := ih _ (c + 1) (by omega) (by omega) (by rw [hr.1]; exact hn) hs1
      exact ⟨b, hb, rearranges_trans (rearranges_mono (by omega) hr) hrb, hsb⟩
    · rw [if_neg hc]
      refine ⟨a, rfl, rearranges_refl a n, ?_⟩
      have : a.take n = (a.take c).take n := by
        rw [List.take_take, Nat.min_eq_left (by omega)]
      rw [this]
      exact hs.sublist (List.take_sublist _ _)

/-- Full specification of `insertion_sort`. -/
theorem insertion_sort_spec (a : List record_t) (n : Nat) (hn : n ≤ a.length) :
    ∃ b, insertion_sort a n = .ok b ∧ rearranges a b n ∧ sorted_slots b n := by
  have h1 : (a.take 1).Pairwise key_le := by
    cases a with
    | nil => simp
    | cons x t => simp
  obtain ⟨b, hb, hr, hs⟩ := insertion_sort_loop_spec n (n + 1) a 1 (by omega) (by omega) hn h1
  exact ⟨b, hb, hr, (sorted_slots_iff b n (by rw [hr.1]; exact hn)).2 hs⟩

/-! ## merge and merge_sort -/

theorem merge_runs_nil_right (l : List record_t) : merge_runs l [] = l := by
  cases l <;> simp [merge_runs]

theorem merge_runs_nil_left (r : List record_t) : merge_runs [] r = r := by
  simp [merge_runs]

theorem merge_runs_cons (x y : record_t) (l r : List record_t) :
    merge_runs (x :: l) (y :: r) =
      if x.key < y.key then x :: merge_runs l (y :: r) else y :: merge_runs (x :: l) r := by
  rw [merge_runs]

theorem merge_runs_perm : ∀ (l r : List record_t), (merge_runs l r).Perm (l ++ r)
  | [], r => by simp [merge_runs]
  | x :: l, [] => by simp [merge_runs]
  | x :: l, y :: r => by
    rw [merge_runs_cons]
    by_cases h : x.key < y.key
    · rw [if_pos h]
      exact (merge_runs_perm l (y :: r)).cons x
    · rw [if_neg h]
      have h1 := (merge_runs_perm (x :: l) r).cons y
      exact h1.trans (List.perm_middle.symm)
termination_by l r => l.length + r.length

theorem merge_runs_length (l r : List record_t) :
    (merge_runs l r).length = l.length + r.length := by
  rw [(merge_runs_perm l r).length_eq]; simp

theorem merge_runs_sorted : ∀ (l r : List record_t), l.Pairwise key_le → r.Pairwise key_le →
    (merge_runs l r).Pairwise key_le
  | [], r => by intro _ h; simpa [merge_runs] using h
  | x :: l, [] => by intro h _; simpa [merge_runs] using h
  | x :: l, y :: r => by
    intro hl hr
    rw [merge_runs_cons]
    by_cases h : x.key < y.key
    · rw [if_pos h]
      refine List.pairwise_cons.2 ⟨?_, merge_runs_sorted l (y :: r) (List.Pairwise.of_cons hl) hr⟩
      intro z hz
      rcases List.mem_append.1 ((merge_runs_perm l (y :: r)).mem_iff.1 hz) with hz | hz
      · exact List.rel_of_pairwise_cons hl hz
      · rcases List.mem_cons.1 hz with hz | hz
        · rw [hz]; exact le_of_lt h
        · exact le_trans (le_of_lt h) (List.rel_of_pairwise_cons hr hz)
    · rw [if_neg h]
      refine List.pairwise_cons.2 ⟨?_, merge_runs_sorted (x :: l) r hl (List.Pairwise.of_cons hr)⟩
      intro z hz
      rcases List.mem_append.1 ((merge_runs_perm (x :: l) r).mem_iff.1 hz) with hz | hz
      · rcases List.mem_cons.1 hz with hz | hz
        · rw [hz]; exact not_lt.1 h
        · exact le_trans (not_lt.1 h) (List.rel_of_pairwise_cons hl hz)
      · exact List.rel_of_pairwise_cons hr hz
termination_by l r => l.length + r.length

/-- The effect of `memcpy` of `count` records between two buffers. -/
theorem memcpy_spec (src : List record_t) :
    ∀ (count : Nat) (dst : List record_t) (d s : Nat), d + count ≤ dst.length →
      s + count ≤ src.length →
      memcpy dst d src s count = dst.take d ++ (src.drop s).take count ++ dst.drop (d + count) := by
  intro count
  induction count with
  | zero =>
    intro dst d s _ _
    simp [memcpy]
  | succ count ih =>
    intro dst d s hd hs
    rw [memcpy, ih (dst.set d (rd src s)) (d + 1) (s + 1) (by simp; omega) (by omega)]
    obtain ⟨hsplit, hlen⟩ := split_at_slot dst d (by omega)
    have hset : dst.set d (rd src s) = dst.take d ++ rd src s :: dst.drop (d + 1) := by
      conv_lhs => rw [hsplit]
      have := set_length_append (dst.take d) (dst.drop (d + 1)) (rd dst d) (rd src s)
      rwa [hlen] at this
    have h1 : (dst.set d (rd src s)).take (d + 1) = dst.take d ++ [rd src s] := by
      rw [hset]
      have : dst.take d ++ rd src s :: dst.drop (d + 1) =
          (dst.take d ++ [rd src s]) ++ dst.drop (d + 1) := by simp
      rw [this]
      exact List.take_left' (by simp; omega)
    have h2 : (dst.set d (rd src s)).drop (d + 1 + count) = dst.drop (d + (count + 1)) := by
      rw [List.drop_set_of_lt _ _ (by omega)]
      congr 1; omega
    have h3 : (src.drop s).take (count + 1) = rd src s :: (src.drop (s + 1)).take count := by
      rw [List.drop_eq_getElem_cons (show s < src.length by omega), List.take_succ_cons,
        rd_of_lt src s (by omega)]
    rw [h1, h2, h3]
    simp

theorem take_succ_set (l : List record_t) (d : Nat) (x : record_t) (hd : d < l.length) :
    (l.set d x).take (d + 1) = l.take d ++ [x] := by
  obtain ⟨hsplit, hlen⟩ := split_at_slot l d hd
  have hset : l.set d x = (l.take d ++ [x]) ++ l.drop (d + 1) := by
    conv_lhs => rw [hsplit]
    have := set_length_append (l.take d) (l.drop (d + 1)) (rd l d) x
    rw [hlen] at this
    rw [this]; simp
  rw [hset]
  exact List.take_left' (by simp; omega)

theorem drop_take_cons (l : List record_t) (i k : Nat) (hi : i < l.length) (hk : 0 < k) :
    (l.drop i).take k = rd l i :: (l.drop (i + 1)).take (k - 1) := by
  obtain ⟨k', rfl⟩ : ∃ k', k = k' + 1 := ⟨k - 1, by omega⟩
  rw [List.drop_eq_getElem_cons hi, List.take_succ_cons, rd_of_lt l i hi]
  simp

/-- The loop of `merge` followed by the bulk copy of the remainder leaves in `scratch`, from
`sptr` on, the list-level merge of what is left of the two runs. -/
theorem merge_loop_spec (array : List record_t) (base left right : Nat)
    (hb : base + left + right ≤ array.length) :
    ∀ (fuel : Nat) (scratch : List record_t) (sptr ptr1 ptr2 : Nat), ptr1 ≤ left → left ≤ ptr2 →
      ptr2 ≤ left + right → sptr + (left - ptr1) + (left + right - ptr2) ≤ scratch.length →
      (left - ptr1) + (left + right - ptr2) < fuel →
      ∃ sc sp p1 p2,
        merge_loop fuel array base left (left + right) scratch sptr ptr1 ptr2 =
          .ok (sc, sp, p1, p2) ∧
        merge_rest array base left (left + right) sc sp p1 p2 =
          .ok (scratch.take sptr ++
            merge_runs ((array.drop (base + ptr1)).take (left - ptr1))
              ((array.drop (base + ptr2)).take (left + right - ptr2)) ++
            scratch.drop (sptr + (left - ptr1) + (left + right - ptr2))) := by
  intro fuel
  induction fuel with
  | zero => intro _ _ _ _ _ _ _ _ h; omega
  | succ fuel ih =>
    intro scratch sptr ptr1 ptr2 h1 h2 h3 hs hf
    rw [merge_loop]
    by_cases hc : ptr1 ≠ left ∧ ptr2 ≠ left + right
    · rw [if_pos hc,
        if_neg (not_not.2 (within_two array (base + ptr1) (base + ptr2) (by omega) (by omega))),
        if_neg (not_not.2 (within_one scratch sptr (by omega)))]
      have hL := drop_take_cons array (base + ptr1) (left - ptr1) (by omega) (by omega)
      have hR := drop_take_cons array (base + ptr2) (left + right - ptr2) (by omega) (by omega)
      rw [hL, hR, merge_runs_cons]
      by_cases hk : (rd array (base + ptr1)).key < (rd array (base + ptr2)).key
      · rw [if_pos hk, if_pos hk]
        obtain ⟨sc, sp, p1, p2, hrun, hfin⟩ := ih (scratch.set sptr (rd array (base + ptr1)))
          (sptr + 1) (ptr1 + 1) ptr2 (by omega) h2 h3 (by simp; omega) (by omega)
        refine ⟨sc, sp, p1, p2, hrun, ?_⟩
        rw [hfin, take_succ_set scratch sptr _ (by omega), List.drop_set_of_lt _ _ (by omega), hR]
        have e1 : sptr + 1 + (left - (ptr1 + 1)) + (left + right - ptr2) =
            sptr + (left - ptr1) + (left + right - ptr2) := by omega
        have e2 : base + (ptr1 + 1) = base + ptr1 + 1 := by omega
        have e3 : left - (ptr1 + 1) = left - ptr1 - 1 := by omega
        rw [e1, e2, e3]
        simp
      · rw [if_neg hk, if_neg hk]
        obtain ⟨sc, sp, p1, p2, hrun, hfin⟩ := ih (scratch.set sptr (rd array (base + ptr2)))
          (sptr + 1) ptr1 (ptr2 + 1) h1 (by omega) (by omega) (by simp; omega) (by omega)
        refine ⟨sc, sp, p1, p2, hrun, ?_⟩
        rw [hfin, take_succ_set scratch sptr _ (by omega), List.drop_set_of_lt _ _ (by omega), hL]
        have e1 : sptr + 1 + (left - ptr1) + (left + right - (ptr2 + 1)) =
            sptr + (left - ptr1) + (left + right - ptr2) := by omega
        have e2 : base + (ptr2 + 1) = base + ptr2 + 1 := by omega
        have e3 : left + right - (ptr2 + 1) = left + right - ptr2 - 1 := by omega
        rw [e1, e2, e3]
        simp
    · rw [if_neg hc]
      refine ⟨scratch, sptr, ptr1, ptr2, rfl, ?_⟩
      unfold merge_rest
      by_cases hp1 : ptr1 ≠ left
      · have hp2 : ptr2 = left + right := by
          by_contra h; exact hc ⟨hp1, h⟩
        rw [if_pos hp1,
          if_neg (not_not.2 (copy_within_intro scratch sptr array (base + ptr1) (left - ptr1)
            (by omega) (by omega))),
          memcpy_spec array _ scratch sptr (base + ptr1) (by omega) (by omega)]
        subst hp2
        simp [merge_runs_nil_right]
      · rw [if_neg hp1]
        have hp1' : ptr1 = left := not_not.1 hp1
        subst hp1'
        by_cases hp2 : ptr2 ≠ ptr1 + right
        · rw [if_pos hp2,
            if_neg (not_not.2 (copy_within_intro scratch sptr array (base + ptr2)
              (ptr1 + right - ptr2) (by omega) (by omega))),
            memcpy_spec array _ scratch sptr (base + ptr2) (by omega) (by omega)]
          simp [merge_runs_nil_left]
        · rw [if_neg hp2]
          have hp2' : ptr2 = ptr1 + right := not_not.1 hp2
          subst hp2'
          simp [merge_runs_nil_left]

/-- Specification of `merge`: the window of `left + right` slots at `base` is replaced by the
list-level merge of its two runs; nothing else in the array changes. -/
theorem merge_spec (array : List record_t) (base left right : Nat) (scratch : List record_t)
    (hb : base + left + right ≤ array.length) (hs : left + right ≤ scratch.length) :
    ∃ sc, merge array base left right scratch =
        .ok (array.take base ++
          merge_runs ((array.drop base).take left) ((array.drop (base + left)).take right) ++
          array.drop (base + left + right), sc) ∧ sc.length = scratch.length := by
  obtain ⟨sc, sp, p1, p2, hrun, hfin⟩ := merge_loop_spec array base left right hb
    (left + right + 1) scratch 0 0 left (by omega) (le_refl _) (by omega) (by omega) (by omega)
  simp only [Nat.sub_zero, Nat.add_zero, Nat.add_sub_cancel_left, List.take_zero, List.nil_append,
    Nat.zero_add] at hfin
  unfold merge
  simp only [hrun, hfin]
  have hlen := merge_runs_length ((array.drop base).take left)
    ((array.drop (base + left)).take right)
  have hl1 : ((array.drop base).take left).length = left := by simp; omega
  have hl2 : ((array.drop (base + left)).take right).length = right := by simp; omega
  rw [hl1, hl2] at hlen
  rw [if_neg (not_not.2 (copy_within_intro array base _ 0 (left + right) (by omega)
    (by simp [hlen])))]
  refine ⟨merge_runs ((array.drop base).take left) ((array.drop (base + left)).take right) ++
    scratch.drop (left + right), ?_, ?_⟩
  · rw [memcpy_spec _ (left + right) array base 0 (by omega) (by simp [hlen])]
    rw [List.drop_zero, List.take_left' hlen, Nat.add_assoc]
  · simp [hlen]
    omega

theorem runs_one (l : List record_t) : runs 1 l := by
  induction l with
  | nil => exact runs.short [] (by simp) List.Pairwise.nil
  | cons x t ih => exact runs.cons [x] t rfl (List.pairwise_singleton _ _) ih

theorem runs_split (s : Nat) (l : List record_t) (h : runs s l) :
    (l.take s).Pairwise key_le ∧ runs s (l.drop s) := by
  cases h with
  | short _ hlen hs =>
    rw [List.take_of_length_le hlen, List.drop_of_length_le hlen]
    exact ⟨hs, runs.short [] (by simp) List.Pairwise.nil⟩
  | cons c rest hlen hs hr =>
    rw [List.take_left' hlen, List.drop_left' hlen]
    exact ⟨hs, hr⟩

theorem runs_sorted (s : Nat) (l : List record_t) (h : runs s l) (hl : l.length ≤ s) :
    l.Pairwise key_le := by
  cases h with
  | short _ _ hs => exact hs
  | cons c rest hlen hs _ =>
    have : rest = [] := by
      apply List.eq_nil_of_length_eq_zero
      simp at hl; omega
    rw [this, List.append_nil]
    exact hs

theorem merge_concat (pre L R post scratch : List record_t)
    (hs : L.length + R.length ≤ scratch.length) :
    ∃ sc, merge (pre ++ (L ++ (R ++ post))) pre.length L.length R.length scratch =
        .ok (pre ++ (merge_runs L R ++ post), sc) ∧ sc.length = scratch.length := by
  obtain ⟨sc, h, hlen⟩ := merge_spec (pre ++ (L ++ (R ++ post))) pre.length L.length R.length
    scratch (by simp; omega) hs
  refine ⟨sc, ?_, hlen⟩
  rw [h]
  have e1 : (pre ++ (L ++ (R ++ post))).take pre.length = pre := List.take_left' rfl
  have e2 : ((pre ++ (L ++ (R ++ post))).drop pre.length).take L.length = L := by
    rw [List.drop_left' rfl]; exact List.take_left' rfl
  have e3 : ((pre ++ (L ++ (R ++ post))).drop (pre.length + L.length)).take R.length = R := by
    have : pre ++ (L ++ (R ++ post)) = (pre ++ L) ++ (R ++ post) := by simp
    rw [this, List.drop_left' (by simp)]; exact List.take_left' rfl
  have e4 : (pre ++ (L ++ (R ++ post))).drop (pre.length + L.length + R.length) = post := by
    have : pre ++ (L ++ (R ++ post)) = (pre ++ L ++ R) ++ post := by simp
    rw [this, List.drop_left' (by simp [Nat.add_assoc])]
  rw [e1, e2, e3, e4, List.append_assoc]

/-- One pass of `merge_sort` over the runs of length `span` produces runs of length
`2 * span`, permuting only the part of the array from `index` on. -/
theorem merge_sort_pass_spec (span : Nat) (hspan : 1 ≤ span) :
    ∀ (fuel : Nat) (pre T post scratch : List record_t), runs span T →
      pre.length + T.length ≤ scratch.length → T.length < fuel →
      ∃ T' sc, merge_sort_pass fuel (pre ++ (T ++ post)) (pre.length + T.length) span scratch
          pre.length = .ok (pre ++ (T' ++ post), sc) ∧
        sc.length = scratch.length ∧ T'.Perm T ∧ runs (2 * span) T' := by
  intro fuel
  induction fuel with
  | zero => intro _ _ _ _ _ _ h; omega
  | succ fuel ih =>
    intro pre T post scratch hr hs hf
    rw [merge_sort_pass]
    by_cases hc : pre.length + span < pre.length + T.length
    · rw [if_pos hc]
      obtain ⟨hc1, hrest⟩ := runs_split span T hr
      obtain ⟨hc2, hrest'⟩ := runs_split span (T.drop span) hrest
      have hT : T = T.take span ++ ((T.drop span).take span ++ (T.drop span).drop span) := by
        rw [List.take_append_drop, List.take_append_drop]
      have hl1 : (T.take span).length = span := by simp; omega
      have hl2 : ((T.drop span).take span).length =
          MIN span (pre.length + T.length - (pre.length + span)) := by
        simp only [MIN, List.length_take, List.length_drop]
        split_ifs <;> omega
      obtain ⟨sc1, hm, hsc1⟩ := merge_concat pre (T.take span) ((T.drop span).take span)
        ((T.drop span).drop span ++ post) scratch (by
          have := congrArg List.length hT
          simp only [List.length_append] at this
          omega)
      have harr : pre ++ (T ++ post) = pre ++ (T.take span ++ ((T.drop span).take span ++
          ((T.drop span).drop span ++ post))) := by
        have := congrArg (fun X => pre ++ (X ++ post)) hT
        simpa only [List.append_assoc] using this
      rw [hl1, hl2] at hm
      dsimp only
      rw [harr, hm]
      dsimp only
      have hM := merge_runs_length (T.take span) ((T.drop span).take span)
      have hMs := merge_runs_sorted _ _ hc1 hc2
      have hMp := merge_runs_perm (T.take span) ((T.drop span).take span)
      by_cases hfull : ((T.drop span).take span).length = span
      · have hpl : (pre ++ merge_runs (T.take span) ((T.drop span).take span)).length =
            pre.length + 2 * span := by
          rw [List.length_append, hM, hl1, hfull]; omega
        have hn : pre.length + T.length =
            (pre ++ merge_runs (T.take span) ((T.drop span).take span)).length +
              ((T.drop span).drop span).length := by
          rw [hpl]; simp; simp at hfull; omega
        obtain ⟨T2, sc, hrun, hsc, hperm, hruns⟩ := ih
          (pre ++ merge_runs (T.take span) ((T.drop span).take span)) ((T.drop span).drop span)
          post sc1 hrest' (by rw [← hn, hsc1]; exact hs) (by simp; omega)
        rw [← hn, hpl, List.append_assoc] at hrun
        refine ⟨merge_runs (T.take span) ((T.drop span).take span) ++ T2, sc, ?_,
          hsc.trans hsc1, ?_, ?_⟩
        · rw [hrun]; simp
        · conv_rhs => rw [hT]
          rw [← List.append_assoc]
          exact List.Perm.append hMp hperm
        · exact runs.cons _ _ (by rw [hM, hl1, hfull]; omega) hMs hruns
      · have hnil : (T.drop span).drop span = [] := by
          apply List.eq_nil_of_length_eq_zero
          simp at hfull ⊢; omega
        obtain ⟨f', rfl⟩ : ∃ f', fuel = f' + 1 := ⟨fuel - 1, by omega⟩
        rw [merge_sort_pass, if_neg (by
          have := congrArg List.length hT
          simp only [List.length_append, hnil, List.length_nil] at this
          have h2 : ((T.drop span).take span).length ≤ span := by simp
          omega)]
        refine ⟨merge_runs (T.take span) ((T.drop span).take span), sc1, ?_, hsc1, ?_, ?_⟩
        · rw [hnil]; simp
        · conv_rhs => rw [hT, hnil, List.append_nil]
          exact hMp
        · exact runs.short _ (by
            rw [hM, hl1]
            have h2 : ((T.drop span).take span).length ≤ span := by simp
            omega) hMs
    · rw [if_neg hc]
      exact ⟨T, scratch, rfl, rfl, List.Perm.refl _,
        runs.short T (by omega) (runs_sorted span T hr (by omega))⟩

theorem merge_sort_loop_spec (n : Nat) :
    ∀ (fuel : Nat) (array scratch : List record_t) (span : Nat), 1 ≤ span → n ≤ array.length →
      n ≤ scratch.length → runs span (array.take n) → n < fuel + span → 0 < fuel →
      ∃ b, merge_sort_loop fuel array n scratch span = .ok b ∧ rearranges array b n ∧
        (b.take n).Pairwise key_le := by
  intro fuel
  induction fuel with
  | zero => intro _ _ _ _ _ _ _ _ h; omega
  | succ fuel ih =>
    intro array scratch span hspan hn hs hr hf _
    rw [merge_sort_loop]
    by_cases hc : span < n
    · rw [if_pos hc]
      have hlen : (array.take n).length = n := List.length_take_of_le hn
      obtain ⟨T', sc, hrun, hsc, hperm, hruns⟩ := merge_sort_pass_spec span hspan (n + 1) []
        (array.take n) (array.drop n) scratch hr (by simp; omega) (by omega)
      simp only [List.nil_append, List.length_nil, Nat.zero_add, hlen,
        List.take_append_drop] at hrun
      rw [hrun]
      dsimp only
      have hT' : T'.length = n := by rw [hperm.length_eq, hlen]
      have hr1 : rearranges array (T' ++ array.drop n) n := by
        refine ⟨?_, ?_, ?_⟩
        · simp [hT']; omega
        · rw [List.take_left' hT']; exact hperm
        · rw [List.drop_left' hT']
      have hruns' : runs (span * 2) ((T' ++ array.drop n).take n) := by
        rw [List.take_left' hT', Nat.mul_comm]; exact hruns
      obtain ⟨b, hb, hrb, hsb⟩ := ih (T' ++ array.drop n) sc (span * 2) (by omega)
        (by rw [hr1.1]; exact hn) (by rw [hsc]; exact hs) hruns' (by omega) (by omega)
      exact ⟨b, hb, rearranges_trans hr1 hrb, hsb⟩
    · rw [if_neg hc]
      exact ⟨array, rfl, rearranges_refl _ _,
        runs_sorted span _ hr (by rw [List.length_take_of_le hn]; omega)⟩

/-- Full specification of `merge_sort`. -/
theorem merge_sort_spec (a : List record_t) (n : Nat) (hn : n ≤ a.length) :
    ∃ b, merge_sort a n = .ok b ∧ rearranges a b n ∧ sorted_slots b n := by
  obtain ⟨b, hb, hr, hs⟩ := merge_sort_loop_spec n (n + 1) a
    (List.replicate n (⟨0, 0⟩ : record_t)) 1 (le_refl _) hn (by simp) (runs_one _) (by omega)
    (by omega)
  exact ⟨b, hb, hr, (sorted_slots_iff b n (by rw [hr.1]; exact hn)).2 hs⟩

/-! ## Sorted inputs -/

theorem set_rd_self (a : List record_t) (c : Nat) (hc : c < a.length) :
    a.set c (rd a c) = a := by
  apply List.ext_getElem?
  intro i
  rw [List.getElem?_set]
  split
  · next h =>
    subst h
    simp [hc, rd_of_lt a c hc]
  · rfl

/-- On an array whose first `n` slots are sorted, every round of `insertion_sort` finds
nothing to shift and writes the target back where it was. -/
theorem insertion_sort_loop_sorted (n : Nat) :
    ∀ (fuel : Nat) (a : List record_t) (c : Nat), n < fuel + c → 0 < fuel → 1 ≤ c →
      n ≤ a.length → sorted_slots a n → insertion_sort_loop fuel a n c = .ok a := by
  intro fuel
  induction fuel with
  | zero => intro a c _ h; omega
  | succ fuel ih =>
    intro a c hf _ hc hn hs
    rw [insertion_sort_loop]
    by_cases hcn : c < n
    · rw [if_pos hcn, if_neg (not_not.2 (within_one a c (by omega)))]
      obtain ⟨c', rfl⟩ : ∃ c', c = c' + 1 := ⟨c - 1, by omega⟩
      have hle := hs c' hcn
      have hshift : insertion_shift (rd a (c' + 1)) a (c' + 1) = .ok (a, c' + 1) := by
        rw [insertion_shift, if_neg (not_not.2 (within_one a c' (by omega))),
          if_neg (not_lt.2 hle)]
      dsimp only
      rw [hshift]
      dsimp only
      rw [if_neg (not_not.2 (within_one a (c' + 1) (by omega))),
        set_rd_self a (c' + 1) (by omega)]
      exact ih a (c' + 1 + 1) (by omega) (by omega) (by omega) hn hs
    · rw [if_neg hcn]

theorem insertion_sort_sorted_input (a : List record_t) (n : Nat) (hn : n ≤ a.length)
    (hs : sorted_slots a n) : insertion_sort a n = .ok a :=
  insertion_sort_loop_sorted n (n + 1) a 1 (by omega) (by omega) (le_refl _) hn hs

/-- A key-sorted rearrangement of a list with strictly increasing keys is that list. -/
theorem eq_of_perm_of_strict (l1 l2 : List record_t) (hp : l1.Perm l2)
    (h1 : l1.Pairwise key_le) (h2 : l2.Pairwise key_lt) : l1 = l2 := by
  have hk1 : List.Sorted (· ≤ ·) (l1.map record_t.key) := List.pairwise_map.2 h1
  have hk2 : List.Sorted (· < ·) (l2.map record_t.key) := List.pairwise_map.2 h2
  have hk2' : List.Sorted (· ≤ ·) (l2.map record_t.key) :=
    List.Pairwise.imp (fun h => le_of_lt h) hk2
  have hkeys : l1.map record_t.key = l2.map record_t.key :=
    List.eq_of_perm_of_sorted (hp.map record_t.key) hk1 hk2'
  have h1' : l1.Pairwise key_lt := by
    rw [← hkeys] at hk2
    have h : l1.Pairwise (fun x y => x.key < y.key) := List.pairwise_map.1 hk2
    exact h
  exact @List.eq_of_perm_of_sorted record_t key_lt key_lt_antisymm l1 l2 hp h1' h2

/-- A sort that returns a key-sorted rearrangement leaves an array with strictly increasing
keys as it is. -/
theorem eq_of_rearranges_of_strict (a b : List record_t) (n : Nat) (hn : n ≤ a.length)
    (hr : rearranges a b n) (hb : sorted_slots b n) (ha : strict_slots a n) : b = a := by
  have h1 := (sorted_slots_iff b n (by rw [hr.1]; exact hn)).1 hb
  have h2 := (strict_slots_iff a n hn).1 ha
  have ht := eq_of_perm_of_strict _ _ hr.2.1 h1 h2
  rw [← List.take_append_drop n b, ← List.take_append_drop n a, ht, hr.2.2]

/-- Two key-sorted rearrangements of the same records carry the same sequence of keys. -/
theorem keys_eq_of_rearranges (a b : List record_t) (n : Nat) (hn : n ≤ a.length)
    (hr : rearranges a b n) (ha : sorted_slots a n) (hb : sorted_slots b n) :
    keys b = keys a := by
  have h1 := (sorted_slots_iff b n (by rw [hr.1]; exact hn)).1 hb
  have h2 := (sorted_slots_iff a n hn).1 ha
  have hk1 : List.Sorted (· ≤ ·) ((b.take n).map record_t.key) := List.pairwise_map.2 h1
  have hk2 : List.Sorted (· ≤ ·) ((a.take n).map record_t.key) := List.pairwise_map.2 h2
  have hkeys := List.eq_of_perm_of_sorted (hr.2.1.map record_t.key) hk1 hk2
  unfold keys
  rw [← List.take_append_drop n b, ← List.take_append_drop n a, List.map_append, List.map_append,
    hkeys, hr.2.2]

/-- Sorted slots whose keys are pairwise distinct are strictly increasing. -/
theorem strict_of_sorted_of_nodup (a : List record_t) (n : Nat) (hn : n ≤ a.length)
    (hs : sorted_slots a n) (hd : (keys (a.take n)).Nodup) : strict_slots a n := by
  have h1 := (sorted_slots_iff a n hn).1 hs
  have hk1 : List.Sorted (· ≤ ·) ((a.take n).map record_t.key) := List.pairwise_map.2 h1
  have hk2 : List.Sorted (· < ·) ((a.take n).map record_t.key) := hk1.lt_of_le hd
  have h : (a.take n).Pairwise (fun x y => x.key < y.key) := List.pairwise_map.1 hk2
  exact (strict_slots_iff a n hn).2 h

theorem nodup_keys_of_rearranges (a b : List record_t) (n : Nat) (hr : rearranges a b n)
    (hd : (keys (a.take n)).Nodup) : (keys (b.take n)).Nodup :=
  ((hr.2.1.map record_t.key).nodup_iff).2 hd

/-! ## The claims -/

/-- C1: for every array of at least `n` records, `heapsort_max(array, n)` returns and leaves
the keys of the first `n` slots in non-decreasing order, `key[i] <= key[i+1]` whenever
`i + 1 < n`. -/
theorem heapsort_max_sorted (array : List record_t) (n : Nat) (hn : n ≤ array.length) :
    ∃ out, heapsort_max array n = .ok out ∧
      ∀ i, i + 1 < n → (rd out i).key ≤ (rd out (i + 1)).key := by
  obtain ⟨out, h, _, hs⟩ := heapsort_max_spec array n hn
  exact ⟨out, h, hs⟩

/-- C1 at the input of the demo program, keys 11 down to 1: the output keys are 1 up to 11. -/
theorem heapsort_max_sorted_scenario :
    11 ≤ (tagged [11, 10, 9, 8, 7, 6, 5, 4, 3, 2, 1]).length ∧
    (∃ out, heapsort_max (tagged [11, 10, 9, 8, 7, 6, 5, 4, 3, 2, 1]) 11 = .ok out ∧
      ∀ i, i + 1 < 11 → (rd out i).key ≤ (rd out (i + 1)).key) ∧
    (heapsort_max (tagged [11, 10, 9, 8, 7, 6, 5, 4, 3, 2, 1]) 11).toOption.map keys =
      some [1, 2, 3, 4, 5, 6, 7, 8, 9, 10, 11] :=
  ⟨by decide, heapsort_max_sorted _ 11 (by decide), by decide⟩

/-- C2: for every array of at least `n` records, `merge_sort(array, n)` (scratch buffer
allocated) returns and leaves the keys of the first `n` slots in non-decreasing order, for
every `n`, a power of two or not. -/
theorem merge_sort_sorted (array : List record_t) (n : Nat) (hn : n ≤ array.length) :
    ∃ out, merge_sort array n = .ok out ∧
      ∀ i, i + 1 < n → (rd out i).key ≤ (rd out (i + 1)).key := by
  obtain ⟨out, h, _, hs⟩ := merge_sort_spec array n hn
  exact ⟨out, h, hs⟩

/-- C2 at the input of the demo program, keys 15 down to 1 (15 is not a power of two): the
output keys are 1 up to 15. -/
theorem merge_sort_sorted_scenario :
    15 ≤ (tagged [15, 14, 13, 12, 11, 10, 9, 8, 7, 6, 5, 4, 3, 2, 1]).length ∧
    (∃ out, merge_sort (tagged [15, 14, 13, 12, 11, 10, 9, 8, 7, 6, 5, 4, 3, 2, 1]) 15 = .ok out ∧
      ∀ i, i + 1 < 15 → (rd out i).key ≤ (rd out (i + 1)).key) ∧
    (merge_sort (tagged [15, 14, 13, 12, 11, 10, 9, 8, 7, 6, 5, 4, 3, 2, 1]) 15).toOption.map keys =
      some [1, 2, 3, 4, 5, 6, 7, 8, 9, 10, 11, 12, 13, 14, 15] :=
  ⟨by decide, merge_sort_sorted _ 15 (by decide), by decide⟩

/-- C3: for every array of at least `n` records, `insertion_sort(array, n)` returns and leaves
the keys of the first `n` slots in non-decreasing order. -/
theorem insertion_sort_sorted (array : List record_t) (n : Nat) (hn : n ≤ array.length) :
    ∃ out, insertion_sort array n = .ok out ∧
      ∀ i, i + 1 < n → (rd out i).key ≤ (rd out (i + 1)).key := by
  obtain ⟨out, h, _, hs⟩ := insertion_sort_spec array n hn
  exact ⟨out, h, hs⟩

/-- C3 at the input of the demo program, keys 10 down to 1: the output keys are 1 up to 10. -/
theorem insertion_sort_sorted_scenario :
    10 ≤ (tagged [10, 9, 8, 7, 6, 5, 4, 3, 2, 1]).length ∧
    (∃ out, insertion_sort (tagged [10, 9, 8, 7, 6, 5, 4, 3, 2, 1]) 10 = .ok out ∧
      ∀ i, i + 1 < 10 → (rd out i).key ≤ (rd out (i + 1)).key) ∧
    (insertion_sort (tagged [10, 9, 8, 7, 6, 5, 4, 3, 2, 1]) 10).toOption.map keys =
      some [1, 2, 3, 4, 5, 6, 7, 8, 9, 10] :=
  ⟨by decide, insertion_sort_sorted _ 10 (by decide), by decide⟩

/-- C4: `heapsort_max(array, n)` returns with the multiset of (key, payload) records in the
first `n` slots equal to the one before the call; the slots from `n` on are untouched. -/
theorem heapsort_max_multiset (array : List record_t) (n : Nat) (hn : n ≤ array.length) :
    ∃ out, heapsort_max array n = .ok out ∧
      Multiset.ofList (out.take n) = Multiset.ofList (array.take n) ∧
      out.drop n = array.drop n := by
  obtain ⟨out, h, hr, _⟩ := heapsort_max_spec array n hn
  exact ⟨out, h, Multiset.coe_eq_coe.2 hr.2.1, hr.2.2⟩

/-- C4 on four payload-tagged records, two of them sharing a key. -/
theorem heapsort_max_multiset_example :
    4 ≤ (tagged [2, 7, 2, 5]).length ∧
    (∃ out, heapsort_max (tagged [2, 7, 2, 5]) 4 = .ok out ∧
      Multiset.ofList (out.take 4) = Multiset.ofList ((tagged [2, 7, 2, 5]).take 4) ∧
      out.drop 4 = (tagged [2, 7, 2, 5]).drop 4) ∧
    heapsort_max (tagged [2, 7, 2, 5]) 4 = .ok [⟨2, 0⟩, ⟨2, 2⟩, ⟨5, 3⟩, ⟨7, 1⟩] :=
  ⟨by decide, heapsort_max_multiset _ 4 (by decide), by rfl⟩

/-- C5: `merge_sort(array, n)` (scratch buffer allocated) returns with the multiset of
(key, payload) records in the first `n` slots equal to the one before the call; and every
call `merge(&array[base], left, right, scratch)` on a window inside the array, with a scratch
buffer of at least `left + right` records, returns having written back into the window a
permutation of the `left + right` records it held, and nothing outside the window. -/
theorem merge_sort_multiset (array : List record_t) (n : Nat) (hn : n ≤ array.length)
    (base left right : Nat) (scratch : List record_t)
    (hwin : base + left + right ≤ array.length) (hscr : left + right ≤ scratch.length) :
    (∃ out, merge_sort array n = .ok out ∧
      Multiset.ofList (out.take n) = Multiset.ofList (array.take n) ∧
      out.drop n = array.drop n) ∧
    (∃ out sc, merge array base left right scratch = .ok (out, sc) ∧
      Multiset.ofList ((out.drop base).take (left + right)) =
        Multiset.ofList ((array.drop base).take (left + right)) ∧
      out.take base = array.take base ∧
      out.drop (base + left + right) = array.drop (base + left + right)) := by
  constructor
  · obtain ⟨out, h, hr, _⟩ := merge_sort_spec array n hn
    exact ⟨out, h, Multiset.coe_eq_coe.2 hr.2.1, hr.2.2⟩
  · obtain ⟨sc, h, _⟩ := merge_spec array base left right scratch hwin hscr
    have hL : ((array.drop base).take left).length = left := by simp; omega
    have hR : ((array.drop (base + left)).take right).length = right := by simp; omega
    have hM := merge_runs_length ((array.drop base).take left)
      ((array.drop (base + left)).take right)
    rw [hL, hR] at hM
    have hbl : (array.take base).length = base := by simp; omega
    refine ⟨_, sc, h, ?_, ?_, ?_⟩
    · rw [List.append_assoc, List.drop_left' hbl, List.take_left' hM]
      apply Multiset.coe_eq_coe.2
      refine (merge_runs_perm _ _).trans ?_
      rw [List.take_add, List.drop_drop]
    · rw [List.append_assoc, List.take_left' hbl]
    · rw [List.drop_left' (by rw [List.length_append, hbl, hM]; omega)]

/-- C5 on five payload-tagged records: the whole sort, and one call of `merge` on the window
of slots 1 to 4 holding the runs `[3, 9]` and `[4, 8]`. -/
theorem merge_sort_multiset_example :
    (5 ≤ (tagged [1, 3, 9, 4, 8]).length ∧ 1 + 2 + 2 ≤ (tagged [1, 3, 9, 4, 8]).length ∧
      2 + 2 ≤ (List.replicate 5 (⟨0, 0⟩ : record_t)).length) ∧
    ((∃ out, merge_sort (tagged [1, 3, 9, 4, 8]) 5 = .ok out ∧
        Multiset.ofList (out.take 5) = Multiset.ofList ((tagged [1, 3, 9, 4, 8]).take 5) ∧
        out.drop 5 = (tagged [1, 3, 9, 4, 8]).drop 5) ∧
      (∃ out sc, merge (tagged [1, 3, 9, 4, 8]) 1 2 2 (List.replicate 5 ⟨0, 0⟩) = .ok (out, sc) ∧
        Multiset.ofList ((out.drop 1).take (2 + 2)) =
          Multiset.ofList (((tagged [1, 3, 9, 4, 8]).drop 1).take (2 + 2)) ∧
        out.take 1 = (tagged [1, 3, 9, 4, 8]).take 1 ∧
        out.drop (1 + 2 + 2) = (tagged [1, 3, 9, 4, 8]).drop (1 + 2 + 2))) ∧
    (merge (tagged [1, 3, 9, 4, 8]) 1 2 2 (List.replicate 5 ⟨0, 0⟩)).toOption.map Prod.fst =
      some [⟨1, 0⟩, ⟨3, 1⟩, ⟨4, 3⟩, ⟨8, 4⟩, ⟨9, 2⟩] :=
  ⟨⟨by decide, by decide, by decide⟩,
    merge_sort_multiset _ 5 (by decide) 1 2 2 _ (by decide) (by decide), by rfl⟩

/-- C6: `insertion_sort(array, n)` returns with the multiset of (key, payload) records in the
first `n` slots equal to the one before the call; the slots from `n` on are untouched. -/
theorem insertion_sort_multiset (array : List record_t) (n : Nat) (hn : n ≤ array.length) :
    ∃ out, insertion_sort array n = .ok out ∧
      Multiset.ofList (out.take n) = Multiset.ofList (array.take n) ∧
      out.drop n = array.drop n := by
  obtain ⟨out, h, hr, _⟩ := insertion_sort_spec array n hn
  exact ⟨out, h, Multiset.coe_eq_coe.2 hr.2.1, hr.2.2⟩

/-- C6 on four payload-tagged records, two of them sharing a key. -/
theorem insertion_sort_multiset_example :
    4 ≤ (tagged [2, 7, 2, 5]).length ∧
    (∃ out, insertion_sort (tagged [2, 7, 2, 5]) 4 = .ok out ∧
      Multiset.ofList (out.take 4) = Multiset.ofList ((tagged [2, 7, 2, 5]).take 4) ∧
      out.drop 4 = (tagged [2, 7, 2, 5]).drop 4) ∧
    insertion_sort (tagged [2, 7, 2, 5]) 4 = .ok [⟨2, 0⟩, ⟨2, 2⟩, ⟨5, 3⟩, ⟨7, 1⟩] :=
  ⟨by decide, insertion_sort_multiset _ 4 (by decide), by rfl⟩

/-- C7: on two records with equal keys `merge_sort` returns the record of the higher index
first: `merge` moves the left head only when its key is strictly smaller, so on a tie it
moves the right run's record. -/
theorem merge_sort_equal_keys_swapped :
    merge_sort [⟨1, 0⟩, ⟨1, 1⟩] 2 = .ok [⟨1, 1⟩, ⟨1, 0⟩] ∧
    (merge [⟨1, 0⟩, ⟨1, 1⟩] 0 1 1 [⟨0, 0⟩, ⟨0, 0⟩]).toOption.map Prod.fst =
      some [⟨1, 1⟩, ⟨1, 0⟩] :=
  ⟨by rfl, by rfl⟩

/-- C8 fails as stated: the two slots `[(1, p0), (1, p1)]` are in non-decreasing key order,
and `heapsort_max` returns them exchanged. -/
theorem heapsort_max_sorted_input_changed :
    (∀ i, i + 1 < 2 → (rd [⟨1, 0⟩, ⟨1, 1⟩] i).key ≤ (rd [⟨1, 0⟩, ⟨1, 1⟩] (i + 1)).key) ∧
    heapsort_max [⟨1, 0⟩, ⟨1, 1⟩] 2 = .ok [⟨1, 1⟩, ⟨1, 0⟩] ∧
    heapsort_max [⟨1, 0⟩, ⟨1, 1⟩] 2 ≠ .ok [⟨1, 0⟩, ⟨1, 1⟩] := by
  refine ⟨?_, by rfl, ?_⟩
  · intro i hi
    have : i = 0 := by omega
    subst this
    decide
  · intro h
    have h2 : heapsort_max [⟨1, 0⟩, ⟨1, 1⟩] 2 = .ok [⟨1, 1⟩, ⟨1, 0⟩] := by rfl
    rw [h2] at h
    exact absurd (Except.ok.inj h) (by decide)

/-- C8, amended: `insertion_sort` leaves an array whose first `n` keys are in non-decreasing
order identical, shared keys included; `merge_sort` and `heapsort_max` leave an array whose
first `n` keys are strictly increasing identical. -/
theorem sorted_input_unchanged (array : List record_t) (n : Nat) (hn : n ≤ array.length) :
    ((∀ i, i + 1 < n → (rd array i).key ≤ (rd array (i + 1)).key) →
      insertion_sort array n = .ok array) ∧
    ((∀ i, i + 1 < n → (rd array i).key < (rd array (i + 1)).key) →
      merge_sort array n = .ok array ∧ heapsort_max array n = .ok array) := by
  constructor
  · intro hs
    exact insertion_sort_sorted_input array n hn hs
  · intro hs
    constructor
    · obtain ⟨out, h, hr, hso⟩ := merge_sort_spec array n hn
      rw [h, eq_of_rearranges_of_strict array out n hn hr hso hs]
    · obtain ⟨out, h, hr, hso⟩ := heapsort_max_spec array n hn
      rw [h, eq_of_rearranges_of_strict array out n hn hr hso hs]

/-- C8, amended, at concrete inputs: `insertion_sort` on keys `[1, 1, 2]`, `merge_sort` and
`heapsort_max` on keys `[1, 2, 3]`. -/
theorem sorted_input_unchanged_example :
    insertion_sort (tagged [1, 1, 2]) 3 = .ok (tagged [1, 1, 2]) ∧
    merge_sort (tagged [1, 2, 3]) 3 = .ok (tagged [1, 2, 3]) ∧
    heapsort_max (tagged [1, 2, 3]) 3 = .ok (tagged [1, 2, 3]) := by
  have h1 := (sorted_input_unchanged (tagged [1, 1, 2]) 3 (by decide)).1 (by
    intro i hi
    have : i = 0 ∨ i = 1 := by omega
    rcases this with rfl | rfl <;> decide)
  have h2 := (sorted_input_unchanged (tagged [1, 2, 3]) 3 (by decide)).2 (by
    intro i hi
    have : i = 0 ∨ i = 1 := by omega
    rcases this with rfl | rfl <;> decide)
  exact ⟨h1, h2.1, h2.2⟩

/-- C9 fails as stated: on `[(1, p0), (1, p1)]` one `heapsort_max` returns
`[(1, p1), (1, p0)]` and a second one returns `[(1, p0), (1, p1)]`, a different array. -/
theorem heapsort_max_twice_differs :
    heapsort_max [⟨1, 0⟩, ⟨1, 1⟩] 2 = .ok [⟨1, 1⟩, ⟨1, 0⟩] ∧
    heapsort_max [⟨1, 1⟩, ⟨1, 0⟩] 2 = .ok [⟨1, 0⟩, ⟨1, 1⟩] ∧
    ([⟨1, 0⟩, ⟨1, 1⟩] : List record_t) ≠ [⟨1, 1⟩, ⟨1, 0⟩] :=
  ⟨by rfl, by rfl, by decide⟩

/-- C9, amended: sorting twice with `insertion_sort` gives the same array as sorting once;
sorting twice with `merge_sort` or with `heapsort_max` gives the same sequence of keys as
sorting once, and the same array when no two of the first `n` records share a key. -/
theorem sort_twice (array : List record_t) (n : Nat) (hn : n ≤ array.length) :
    (∃ o1, insertion_sort array n = .ok o1 ∧ insertion_sort o1 n = .ok o1) ∧
    (∃ o1 o2, merge_sort array n = .ok o1 ∧ merge_sort o1 n = .ok o2 ∧ keys o2 = keys o1 ∧
      ((keys (array.take n)).Nodup → o2 = o1)) ∧
    (∃ o1 o2, heapsort_max array n = .ok o1 ∧ heapsort_max o1 n = .ok o2 ∧ keys o2 = keys o1 ∧
      ((keys (array.take n)).Nodup → o2 = o1)) := by
  refine ⟨?_, ?_, ?_⟩
  · obtain ⟨o1, h1, hr1, hs1⟩ := insertion_sort_spec array n hn
    have hn1 : n ≤ o1.length := by rw [hr1.1]; exact hn
    exact ⟨o1, h1, insertion_sort_sorted_input o1 n hn1 hs1⟩
  · obtain ⟨o1, h1, hr1, hs1⟩ := merge_sort_spec array n hn
    have hn1 : n ≤ o1.length := by rw [hr1.1]; exact hn
    obtain ⟨o2, h2, hr2, hs2⟩ := merge_sort_spec o1 n hn1
    refine ⟨o1, o2, h1, h2, keys_eq_of_rearranges o1 o2 n hn1 hr2 hs1 hs2, ?_⟩
    intro hd
    exact eq_of_rearranges_of_strict o1 o2 n hn1 hr2 hs2
      (strict_of_sorted_of_nodup o1 n hn1 hs1 (nodup_keys_of_rearranges array o1 n hr1 hd))
  · obtain ⟨o1, h1, hr1, hs1⟩ := heapsort_max_spec array n hn
    have hn1 : n ≤ o1.length := by rw [hr1.1]; exact hn
    obtain ⟨o2, h2, hr2, hs2⟩ := heapsort_max_spec o1 n hn1
    refine ⟨o1, o2, h1, h2, keys_eq_of_rearranges o1 o2 n hn1 hr2 hs1 hs2, ?_⟩
    intro hd
    exact eq_of_rearranges_of_strict o1 o2 n hn1 hr2 hs2
      (strict_of_sorted_of_nodup o1 n hn1 hs1 (nodup_keys_of_rearranges array o1 n hr1 hd))

/-- C9, amended, on the payload-tagged keys `[3, 1, 2, 1]`. -/
theorem sort_twice_example :
    4 ≤ (tagged [3, 1, 2, 1]).length ∧
    ((∃ o1, insertion_sort (tagged [3, 1, 2, 1]) 4 = .ok o1 ∧ insertion_sort o1 4 = .ok o1) ∧
    (∃ o1 o2, merge_sort (tagged [3, 1, 2, 1]) 4 = .ok o1 ∧ merge_sort o1 4 = .ok o2 ∧
      keys o2 = keys o1 ∧ ((keys ((tagged [3, 1, 2, 1]).take 4)).Nodup → o2 = o1)) ∧
    (∃ o1 o2, heapsort_max (tagged [3, 1, 2, 1]) 4 = .ok o1 ∧ heapsort_max o1 4 = .ok o2 ∧
      keys o2 = keys o1 ∧ ((keys ((tagged [3, 1, 2, 1]).take 4)).Nodup → o2 = o1))) :=
  ⟨by decide, sort_twice _ 4 (by decide)⟩

/-- C10: for every array of at least `n` records, `max_heap_build(array, n)` returns and the
first `n` slots satisfy the max-heap invariant: for every 1-based position `i` with
`2 <= i <= n` the key at position `i / 2` is at least the key at position `i`, position `p`
being slot `p - 1`. -/
theorem max_heap_build_heap (array : List record_t) (n : Nat) (hn : n ≤ array.length) :
    ∃ out, max_heap_build array n = .ok out ∧
      ∀ i, 2 ≤ i → i ≤ n → (rd out (i / 2 - 1)).key ≥ (rd out (i - 1)).key := by
  obtain ⟨out, h, _, hh⟩ := max_heap_build_spec array n hn
  refine ⟨out, h, ?_⟩
  intro i h2 hin
  exact hh i hin (by omega)

/-- C10 on the keys `[3, 1, 4, 1, 5, 9, 2, 6]`: the heap built has keys
`[9, 6, 4, 1, 5, 3, 2, 1]`. -/
theorem max_heap_build_heap_scenario :
    8 ≤ (tagged [3, 1, 4, 1, 5, 9, 2, 6]).length ∧
    (∃ out, max_heap_build (tagged [3, 1, 4, 1, 5, 9, 2, 6]) 8 = .ok out ∧
      ∀ i, 2 ≤ i → i ≤ 8 → (rd out (i / 2 - 1)).key ≥ (rd out (i - 1)).key) ∧
    (max_heap_build (tagged [3, 1, 4, 1, 5, 9, 2, 6]) 8).toOption.map keys =
      some [9, 6, 4, 1, 5, 3, 2, 1] :=
  ⟨by decide, max_heap_build_heap _ 8 (by decide), by decide⟩

/-! ## The heap as a priority queue -/

theorem max_heap_iff_heap_from (a : List record_t) (n : Nat) :
    max_heap a n ↔ heap_from a n 1 := by
  constructor
  · intro h c hcn hc
    exact h c (by omega) (by omega)
  · intro h i hin h2
    exact h i (by omega) (by omega)

theorem set_key_payload (a : List record_t) (i : Nat) (k : Int) (p : Nat) (hi : i < a.length) :
    set_payload (set_key a i k) i p = a.set i ⟨k, p⟩ := by
  unfold set_payload set_key
  rw [rd_set_self a i _ hi]
  simp

/-- The two field assignments at the start of `heap_pop_max` copy the last heap record into
slot 0. -/
theorem heap_pop_max_write (a : List record_t) (n : Nat) (hn : 1 ≤ n) (hl : n ≤ a.length) :
    set_payload (set_key a 0 (rd a (n - 1)).key) 0
      (rd (set_key a 0 (rd a (n - 1)).key) (n - 1)).payload = a.set 0 (rd a (n - 1)) := by
  rw [set_key_payload a 0 _ _ (by omega)]
  by_cases h : n - 1 = 0
  · rw [h]
    unfold set_key
    rw [rd_set_self a 0 _ (by omega)]
  · unfold set_key
    rw [rd_set_ne a 0 (n - 1) _ (by omega)]

/-- Specification of `heap_pop_max` on a max heap of `n ≥ 1` records. -/
theorem heap_pop_max_spec (a : List record_t) (n : Nat) (hn : 1 ≤ n) (hl : n ≤ a.length)
    (hh : heap_from a n 1) :
    ∃ b, heap_pop_max a n = .ok (rd a 0, b) ∧ b.length = a.length ∧ heap_from b (n - 1) 1 ∧
      (rd a 0 :: b.take (n - 1)).Perm (a.take n) ∧ b.drop n = a.drop n ∧
      ∀ x ∈ a.take n, x.key ≤ (rd a 0).key := by
  have hex : heap_except (a.set 0 (rd a (n - 1))) (n - 1) 1 1 := by
    constructor
    · intro c hcn hc hne
      have e1 : key_at (a.set 0 (rd a (n - 1))) c = key_at a c := by
        unfold key_at; rw [rd_set_ne _ _ _ _ (by omega)]
      have e2 : key_at (a.set 0 (rd a (n - 1))) (c / 2) = key_at a (c / 2) := by
        unfold key_at; rw [rd_set_ne _ _ _ _ (by omega)]
      rw [e1, e2]
      exact hh c (by omega) hc
    · intro c _ _ h
      omega
  obtain ⟨b, hb, hr, hhb⟩ := heapify_max_spec (a.set 0 (rd a (n - 1))) (n - 1) 1 1 (le_refl _)
    (le_refl _) (by simp; omega) hex
  rw [Nat.cast_one] at hb
  refine ⟨b, ?_, ?_, hhb, ?_, ?_, ?_⟩
  · unfold heap_pop_max
    rw [if_neg (by omega), if_neg (not_not.2 (within_one a 0 (by omega)))]
    dsimp only
    rw [if_neg (not_not.2 (inside_one a n hn hl)), slot_cast, heap_pop_max_write a n hn hl, hb]
  · rw [hr.1]; simp
  · have h1 : (rd a 0 :: (a.set 0 (rd a (n - 1))).take (n - 1)).Perm (a.take n) := by
      by_cases h : n = 1
      · subst h
        simp [List.take_succ, List.getElem?_eq_getElem (show 0 < a.length by omega),
          rd_of_lt a 0 (by omega)]
      · have hlen : 0 < (a.take (n - 1)).length := by simp; omega
        have hp := perm_cons_set (a.take (n - 1)) 0 (rd a (n - 1)) hlen
        rw [List.set_take]
        have h0 : (a.take (n - 1))[0] = rd a 0 := by
          rw [rd_of_lt a 0 (by omega), List.getElem_take]
        rw [h0] at hp
        refine hp.trans ?_
        have htake : a.take n = a.take (n - 1) ++ [rd a (n - 1)] := by
          have : n = n - 1 + 1 := by omega
          conv_lhs => rw [this]
          rw [List.take_succ, List.getElem?_eq_getElem (show n - 1 < a.length by omega),
            rd_of_lt a (n - 1) (by omega)]
          rfl
        rw [htake]
        exact List.perm_append_singleton _ _ |>.symm
    exact (List.Perm.cons _ hr.2.1).trans h1
  · have h1 := (rearranges_mono (Nat.sub_le n 1) hr).2.2
    rw [h1, List.drop_set_of_lt _ _ (by omega)]
  · intro x hx
    obtain ⟨i, hi, _, rfl⟩ := exists_rd_of_mem_take a n x hx
    have := heap_root_max a n hh (i + 1) (by omega) (by omega)
    simpa [key_at] using this

/-- Popping a max heap of `n` records until it is empty returns the `n` records, largest key
first. -/
theorem pop_all_spec :
    ∀ (n : Nat) (a : List record_t), n ≤ a.length → heap_from a n 1 →
      ∃ rs, pop_all a n = .ok rs ∧ rs.Perm (a.take n) ∧
        rs.Pairwise (fun x y => x.key ≥ y.key) := by
  intro n
  induction n with
  | zero =>
    intro a _ _
    exact ⟨[], by rw [pop_all], by simp, List.Pairwise.nil⟩
  | succ n ih =>
    intro a hl hh
    obtain ⟨b, hb, hlen, hhb, hperm, _, hmax⟩ := heap_pop_max_spec a (n + 1) (by omega) hl hh
    rw [Nat.add_sub_cancel] at hhb hperm
    obtain ⟨rs, hrs, hp, hs⟩ := ih b (by rw [hlen]; omega) hhb
    refine ⟨rd a 0 :: rs, ?_, ?_, ?_⟩
    · rw [pop_all, hb]
      dsimp only
      rw [hrs]
    · exact (List.Perm.cons _ hp).trans hperm
    · refine List.pairwise_cons.2 ⟨?_, hs⟩
      intro y hy
      have h1 : y ∈ b.take n := hp.mem_iff.1 hy
      have h2 : y ∈ a.take (n + 1) := hperm.mem_iff.1 (List.mem_cons_of_mem _ h1)
      exact hmax y h2

theorem keys_descending_of_pop_all (rs l : List record_t) (hp : rs.Perm l)
    (hs : rs.Pairwise (fun x y => x.key ≥ y.key)) :
    List.Sorted (· ≥ ·) (keys rs) ∧ keys rs = List.insertionSort (· ≥ ·) (keys l) := by
  have h1 : List.Sorted (· ≥ ·) (keys rs) := List.pairwise_map.2 hs
  refine ⟨h1, ?_⟩
  have h2 : (keys rs).Perm (List.insertionSort (· ≥ ·) (keys l)) :=
    (hp.map record_t.key).trans (List.perm_insertionSort _ _).symm
  exact List.eq_of_perm_of_sorted h2 h1 (List.sorted_insertionSort _ _)

theorem PARENT_cast (p : Nat) : PARENT (p : Int) = ((p / 2 : Nat) : Int) := by
  unfold PARENT
  rfl

/-- One unfolding of the sift-up loop at a position `p`, in terms of natural numbers. -/
theorem max_heap_insert_loop_succ (f : Nat) (a : List record_t) (p : Nat)
    (hp : p ≤ a.length) :
    max_heap_insert_loop (f + 1) a (p : Int) =
      if 1 < p ∧ key_at a (p / 2) < key_at a p then
        max_heap_insert_loop f (swap_records a (p / 2 - 1) (p - 1)) ((p / 2 : Nat) : Int)
      else .ok a := by
  rw [max_heap_insert_loop]
  have h1 : ((p : Int) > 1) ↔ 1 < p := by omega
  have g : ¬ ((p : Int) > 1 ∧ ¬ inside a [PARENT (p : Int), (p : Int)]) := by
    intro h
    rw [PARENT_cast] at h
    exact h.2 (inside_two a (p / 2) p (by omega) (by omega) (by omega) hp)
  rw [if_neg g]
  simp only [PARENT_cast, slot_cast, h1, key_at]

/-- On an array that holds the position `p`, the sift-up loop returns within its budget
whatever the records are. -/
theorem max_heap_insert_loop_returns :
    ∀ (f : Nat) (a : List record_t) (p : Nat), p < f → p ≤ a.length →
      ∃ b, max_heap_insert_loop f a (p : Int) = .ok b := by
  intro f
  induction f with
  | zero => intro a p h; omega
  | succ f ih =>
    intro a p hf hp
    rw [max_heap_insert_loop_succ f a p hp]
    by_cases hc : 1 < p ∧ key_at a (p / 2) < key_at a p
    · rw [if_pos hc]
      exact ih _ (p / 2) (by omega) (by rw [swap_records_length]; omega)
    · rw [if_neg hc]
      exact ⟨a, rfl⟩

/-- Swapping `i` with its smaller parent moves the possible defect from `i` to the parent. -/
theorem heap_up_except_swap (a : List record_t) (n i : Nat) (hi : 2 ≤ i) (hin : i ≤ n)
    (hn : n ≤ a.length) (hex : heap_up_except a n i) (hlt : key_at a (i / 2) < key_at a i) :
    heap_up_except (swap_records a (i / 2 - 1) (i - 1)) n (i / 2) := by
  constructor
  · intro c hc2 hcn hne
    rw [key_at_swap a (i / 2) i c (by omega) (by omega) (by omega) (by omega) (by omega),
      key_at_swap a (i / 2) i (c / 2) (by omega) (by omega) (by omega) (by omega) (by omega)]
    by_cases h1 : c = i
    · subst h1
      rw [if_pos rfl, if_neg (by omega), if_pos rfl]
      exact le_of_lt hlt
    · rw [if_neg h1, if_neg hne]
      by_cases h2 : c / 2 = i
      · rw [if_pos h2]
        exact hex.2 c hcn h2 hi
      · rw [if_neg h2]
        by_cases h3 : c / 2 = i / 2
        · rw [if_pos h3]
          have := hex.1 c hc2 hcn h1
          rw [h3] at this
          exact le_trans this (le_of_lt hlt)
        · rw [if_neg h3]
          exact hex.1 c hc2 hcn h1
  · intro c hcn hc h2
    rw [key_at_swap a (i / 2) i c (by omega) (by omega) (by omega) (by omega) (by omega),
      key_at_swap a (i / 2) i (i / 2 / 2) (by omega) (by omega) (by omega) (by omega) (by omega)]
    rw [if_neg (show ¬ (i / 2 / 2 = i) by omega), if_neg (show ¬ (i / 2 / 2 = i / 2) by omega)]
    have hpar := hex.1 (i / 2) h2 (by omega) (by omega)
    by_cases h1 : c = i
    · subst h1
      rw [if_pos rfl]
      exact hpar
    · rw [if_neg h1, if_neg (by omega)]
      have := hex.1 c (by omega) hcn h1
      rw [hc] at this
      exact le_trans this hpar

/-- Specification of the sift-up loop of `max_heap_insert`. -/
theorem max_heap_insert_loop_spec (n : Nat) :
    ∀ (f : Nat) (a : List record_t) (i : Nat), i < f → 1 ≤ i → i ≤ n → n ≤ a.length →
      heap_up_except a n i →
      ∃ b, max_heap_insert_loop f a (i : Int) = .ok b ∧ rearranges a b n ∧ heap_from b n 1 := by
  intro f
  induction f with
  | zero => intro a i h; omega
  | succ f ih =>
    intro a i hf hi hin hn hex
    rw [max_heap_insert_loop_succ f a i (by omega)]
    by_cases hc : 1 < i ∧ key_at a (i / 2) < key_at a i
    · rw [if_pos hc]
      have hex2 := heap_up_except_swap a n i (by omega) hin hn hex hc.2
      obtain ⟨b, hb, hr, hh⟩ := ih (swap_records a (i / 2 - 1) (i - 1)) (i / 2) (by omega)
        (by omega) (by omega) (by rw [swap_records_length]; exact hn) hex2
      exact ⟨b, hb, rearranges_trans
        (rearranges_swap a (i / 2 - 1) (i - 1) n (by omega) (by omega) hn) hr, hh⟩
    · rw [if_neg hc]
      refine ⟨a, rfl, rearranges_refl a n, ?_⟩
      intro c hcn hc1
      by_cases h1 : c = i
      · subst h1
        exact not_lt.1 (fun h => hc ⟨by omega, h⟩)
      · exact hex.1 c (by omega) hcn h1

/-- Specification of `max_heap_insert` on a max heap of `heap_size` records with a spare
slot. -/
theorem max_heap_insert_spec (a : List record_t) (capacity heap_size : Nat) (key : Int)
    (payload : Nat) (hcap : heap_size < capacity) (hl : capacity ≤ a.length)
    (hh : heap_from a heap_size 1) :
    ∃ b, max_heap_insert a capacity heap_size key payload = .ok b ∧ b.length = a.length ∧
      heap_from b (heap_size + 1) 1 ∧
      (b.take (heap_size + 1)).Perm (⟨key, payload⟩ :: a.take heap_size) ∧
      b.drop (heap_size + 1) = a.drop (heap_size + 1) := by
  have hex : heap_up_except (a.set heap_size ⟨key, payload⟩) (heap_size + 1) (heap_size + 1) := by
    constructor
    · intro c hc2 hcn hne
      have e1 : key_at (a.set heap_size ⟨key, payload⟩) c = key_at a c := by
        unfold key_at; rw [rd_set_ne _ _ _ _ (by omega)]
      have e2 : key_at (a.set heap_size ⟨key, payload⟩) (c / 2) = key_at a (c / 2) := by
        unfold key_at; rw [rd_set_ne _ _ _ _ (by omega)]
      rw [e1, e2]
      exact hh c (by omega) (by omega)
    · intro c hcn hc _
      omega
  obtain ⟨b, hb, hr, hhb⟩ := max_heap_insert_loop_spec (heap_size + 1) (heap_size + 1 + 1)
    (a.set heap_size ⟨key, payload⟩) (heap_size + 1) (by omega) (by omega) (le_refl _)
    (by simp; omega) hex
  refine ⟨b, ?_, ?_, hhb, ?_, ?_⟩
  · unfold max_heap_insert
    rw [if_neg (by omega)]
    dsimp only
    rw [if_neg (not_not.2 (inside_one a (heap_size + 1) (by omega) (by omega))), slot_cast,
      Nat.add_sub_cancel, set_key_payload a heap_size key payload (by omega)]
    exact hb
  · rw [hr.1]; simp
  · refine hr.2.1.trans ?_
    rw [take_succ_set a heap_size _ (by omega)]
    exact List.perm_append_singleton _ _
  · rw [hr.2.2, List.drop_set_of_lt _ _ (by omega)]

/-! ## heapify_max on a subtree -/

theorem in_subtree_refl (i : Nat) : in_subtree i i := ⟨0, by simp⟩

theorem in_subtree_child (i j : Nat) (h : in_subtree i (j / 2)) : in_subtree i j := by
  obtain ⟨k, hk⟩ := h
  refine ⟨k + 1, ?_⟩
  rw [Nat.pow_succ, Nat.mul_comm, ← Nat.div_div_eq_div_mul]
  exact hk

theorem in_subtree_parent (i j : Nat) (h : in_subtree i j) (hne : j ≠ i) :
    in_subtree i (j / 2) := by
  obtain ⟨k, hk⟩ := h
  cases k with
  | zero => simp at hk; exact absurd hk hne
  | succ k =>
    refine ⟨k, ?_⟩
    rw [Nat.pow_succ, Nat.mul_comm, ← Nat.div_div_eq_div_mul] at hk
    exact hk

theorem in_subtree_le (i j : Nat) (h : in_subtree i j) : i ≤ j := by
  obtain ⟨k, hk⟩ := h
  rw [← hk]
  exact Nat.div_le_self _ _

theorem in_subtree_of_root_parent (p l j : Nat) (hl : l / 2 = p) (h : in_subtree l j) :
    in_subtree p j := by
  obtain ⟨k, hk⟩ := h
  refine ⟨k + 1, ?_⟩
  rw [Nat.pow_succ, ← Nat.div_div_eq_div_mul, hk, hl]

theorem in_subtree_split (i j : Nat) (h : in_subtree i j) (hne : j ≠ i) :
    in_subtree (2 * i) j ∨ in_subtree (2 * i + 1) j := by
  obtain ⟨k, hk⟩ := h
  cases k with
  | zero => simp at hk; exact absurd hk hne
  | succ k =>
    rw [Nat.pow_succ, ← Nat.div_div_eq_div_mul] at hk
    have : j / 2 ^ k = 2 * i ∨ j / 2 ^ k = 2 * i + 1 := by omega
    rcases this with h | h
    · exact Or.inl ⟨k, h⟩
    · exact Or.inr ⟨k, h⟩

/-- Swapping `p` with its largest child `l` moves the possible defect of the subtree from `p`
to `l`. -/
theorem subtree_except_swap (a : List record_t) (n r p l : Nat) (hr : 1 ≤ r)
    (hrp : in_subtree r p) (hl : l = 2 * p ∨ l = 2 * p + 1) (hln : l ≤ n) (hn : n ≤ a.length)
    (hex : subtree_except a n r p) (hgt : key_at a p < key_at a l)
    (hsib : ∀ c, c ≤ n → c / 2 = p → key_at a c ≤ key_at a l) :
    subtree_except (swap_records a (p - 1) (l - 1)) n r l := by
  have hl2 : l / 2 = p := by omega
  have hp1 : 1 ≤ p := le_trans hr (in_subtree_le r p hrp)
  have hrl : in_subtree r l := in_subtree_child r l (by rw [hl2]; exact hrp)
  constructor
  · intro c hcn hc hcl
    have hc1 : 1 ≤ c / 2 := le_trans hr (in_subtree_le r _ hc)
    rw [key_at_swap a p l c (by omega) (by omega) (by omega) (by omega) (by omega),
      key_at_swap a p l (c / 2) (by omega) (by omega) (by omega) (by omega) (by omega)]
    rw [if_neg hcl]
    by_cases h1 : c = l
    · subst h1
      rw [if_pos rfl, if_pos hl2]
      exact le_of_lt hgt
    · rw [if_neg h1]
      by_cases h2 : c = p
      · subst h2
        rw [if_pos rfl, if_neg (by omega)]
        have hne : c ≠ r := by
          have := in_subtree_le r _ hc
          omega
        exact hex.2 l hln hl2 hne
      · rw [if_neg h2]
        by_cases h3 : c / 2 = p
        · rw [if_pos h3]
          exact hsib c hcn h3
        · rw [if_neg h3]
          exact hex.1 c hcn hc h3
  · intro c hcn hc _
    rw [key_at_swap a p l c (by omega) (by omega) (by omega) (by omega) (by omega),
      key_at_swap a p l (l / 2) (by omega) (by omega) (by omega) (by omega) (by omega)]
    rw [if_neg (by omega), if_neg (by omega), if_neg (by omega), if_pos hl2]
    have h := hex.1 c hcn (by rw [hc]; exact hrl) (by omega)
    rwa [hc] at h

/-- Specification of `heapify_max` on the subtree with root `r`: a subtree whose only defect
is at `p` comes out in heap order. -/
theorem heapify_max_fuel_subtree (n r : Nat) (hr : 1 ≤ r) :
    ∀ (f : Nat) (a : List record_t) (p : Nat), n < f + p → 0 < f → in_subtree r p →
      n ≤ a.length → subtree_except a n r p →
      ∃ b, heapify_max_fuel f a n (p : Int) = .ok b ∧
        ∀ c, c ≤ n → in_subtree r (c / 2) → key_at b c ≤ key_at b (c / 2) := by
  intro f
  induction f with
  | zero => intro a p _ h0; omega
  | succ f ih =>
    intro a p hf _ hrp hn hex
    have hp : 1 ≤ p := le_trans hr (in_subtree_le r p hrp)
    rw [heapify_max_fuel_succ f a n p hp hn]
    have step : ∀ l, (l = 2 * p ∨ l = 2 * p + 1) → l ≤ n → key_at a p < key_at a l →
        (∀ c, c ≤ n → c / 2 = p → key_at a c ≤ key_at a l) →
        ∃ b, heapify_max_fuel f (swap_records a (p - 1) (l - 1)) n (l : Int) = .ok b ∧
          ∀ c, c ≤ n → in_subtree r (c / 2) → key_at b c ≤ key_at b (c / 2) := by
      intro l hl hln hgt hsib
      have hex2 := subtree_except_swap a n r p l hr hrp hl hln hn hex hgt hsib
      have hrl : in_subtree r l := in_subtree_child r l (by
        have : l / 2 = p := by omega
        rw [this]; exact hrp)
      exact ih (swap_records a (p - 1) (l - 1)) l (by omega) (by omega) hrl
        (by rw [swap_records_length]; exact hn) hex2
    have child : ∀ c, c / 2 = p → c = 2 * p ∨ c = 2 * p + 1 := by intro c hc; omega
    by_cases c1 : 2 * p ≤ n ∧ key_at a (2 * p) > key_at a p
    · rw [if_pos c1]
      by_cases c2 : 2 * p + 1 ≤ n ∧ key_at a (2 * p + 1) > key_at a (2 * p)
      · rw [if_pos c2]
        refine step (2 * p + 1) (Or.inr rfl) c2.1 (lt_trans c1.2 c2.2) ?_
        intro c _ hc
        rcases child c hc with rfl | rfl
        · exact le_of_lt c2.2
        · exact le_refl _
      · rw [if_neg c2]
        refine step (2 * p) (Or.inl rfl) c1.1 c1.2 ?_
        intro c hcn hc
        rcases child c hc with rfl | rfl
        · exact le_refl _
        · exact not_lt.1 (fun h => c2 ⟨hcn, h⟩)
    · rw [if_neg c1]
      by_cases c2 : 2 * p + 1 ≤ n ∧ key_at a (2 * p + 1) > key_at a p
      · rw [if_pos c2]
        refine step (2 * p + 1) (Or.inr rfl) c2.1 c2.2 ?_
        intro c hcn hc
        rcases child c hc with rfl | rfl
        · exact le_trans (not_lt.1 (fun h => c1 ⟨by omega, h⟩)) (le_of_lt c2.2)
        · exact le_refl _
      · rw [if_neg c2]
        refine ⟨a, rfl, ?_⟩
        intro c hcn hc
        by_cases h3 : c / 2 = p
        · rw [h3]
          rcases child c h3 with rfl | rfl
          · exact not_lt.1 (fun h => c1 ⟨hcn, h⟩)
          · exact not_lt.1 (fun h => c2 ⟨hcn, h⟩)
        · exact hex.1 c hcn hc h3

/-- The slots `heapify_max` can write lie in the subtree of its start position. -/
theorem heapify_max_fuel_frame (n : Nat) :
    ∀ (f : Nat) (a : List record_t) (p : Nat), n < f + p → 0 < f → 1 ≤ p → n ≤ a.length →
      ∃ b, heapify_max_fuel f a n (p : Int) = .ok b ∧
        ∀ j, 1 ≤ j → ¬ in_subtree p j → rd b (j - 1) = rd a (j - 1) := by
  intro f
  induction f with
  | zero => intro a p _ h0; omega
  | succ f ih =>
    intro a p hf _ hp hn
    rw [heapify_max_fuel_succ f a n p hp hn]
    have step : ∀ l, (l = 2 * p ∨ l = 2 * p + 1) → l ≤ n →
        ∃ b, heapify_max_fuel f (swap_records a (p - 1) (l - 1)) n (l : Int) = .ok b ∧
          ∀ j, 1 ≤ j → ¬ in_subtree p j → rd b (j - 1) = rd a (j - 1) := by
      intro l hl hln
      have hl2 : l / 2 = p := by omega
      obtain ⟨b, hb, hfr⟩ := ih (swap_records a (p - 1) (l - 1)) l (by omega) (by omega)
        (by omega) (by rw [swap_records_length]; exact hn)
      refine ⟨b, hb, ?_⟩
      intro j hj hnot
      have hjl : ¬ in_subtree l j := fun h => hnot (in_subtree_of_root_parent p l j hl2 h)
      have hjp : j ≠ p := fun h => hnot (h ▸ in_subtree_refl j)
      have hjl' : j ≠ l := fun h => hjl (h ▸ in_subtree_refl j)
      rw [hfr j hj hjl, rd_swap_records a (p - 1) (l - 1) (j - 1) (by omega) (by omega),
        if_neg (by omega), if_neg (by omega)]
    by_cases c1 : 2 * p ≤ n ∧ key_at a (2 * p) > key_at a p
    · rw [if_pos c1]
      by_cases c2 : 2 * p + 1 ≤ n ∧ key_at a (2 * p + 1) > key_at a (2 * p)
      · rw [if_pos c2]
        exact step (2 * p + 1) (Or.inr rfl) c2.1
      · rw [if_neg c2]
        exact step (2 * p) (Or.inl rfl) c1.1
    · rw [if_neg c1]
      by_cases c2 : 2 * p + 1 ≤ n ∧ key_at a (2 * p + 1) > key_at a p
      · rw [if_pos c2]
        exact step (2 * p + 1) (Or.inr rfl) c2.1
      · rw [if_neg c2]
        exact ⟨a, rfl, fun _ _ _ => rfl⟩

/-- On an array that holds the heap, `heapify_max` at a position `p ≥ 1` returns within its
budget. -/
theorem heapify_max_fuel_ok (n : Nat) :
    ∀ (f : Nat) (a : List record_t) (p : Nat), n < f + p → 0 < f → 1 ≤ p → n ≤ a.length →
      ∃ b, heapify_max_fuel f a n (p : Int) = .ok b := by
  intro f a p hf h0 hp hn
  obtain ⟨b, hb, _⟩ := heapify_max_fuel_returns n f a p hf h0 hp hn
  exact ⟨b, hb⟩

/-- Beyond the heap `heapify_max` changes nothing and reads nothing: a position above
`heap_size` has no child inside the heap.  This holds for every array, whatever its length. -/
theorem heapify_max_above (a : List record_t) (n p : Nat) (hp : n < p) :
    heapify_max a n (p : Int) = .ok a := by
  have hp0 : ((p : Int) > 0) := by omega
  have hl : ¬ (LEFT (p : Int) ≤ (n : Int)) := by simp only [LEFT]; omega
  have hr : ¬ (RIGHT (p : Int) ≤ (n : Int)) := by simp only [RIGHT]; omega
  unfold heapify_max
  rw [heapify_max_fuel]
  simp only [hp0, hl, hr, not_true_eq_false, false_and, if_false, ne_eq]

/-- The extraction loop of `heapsort_max` started at heap size `m`: the slots from `m` on are
never written, and the root it moves to slot `m - 1` stays there. -/
theorem heapsort_max_loop_frame :
    ∀ (m : Nat) (a : List record_t), m ≤ a.length →
      ∃ b, heapsort_max_loop a m = .ok b ∧ b.length = a.length ∧ b.drop m = a.drop m ∧
        (2 ≤ m → rd b (m - 1) = rd a 0) := by
  intro m
  induction m with
  | zero =>
    intro a _
    exact ⟨a, by rw [heapsort_max_loop], rfl, rfl, by omega⟩
  | succ m ih =>
    intro a hl
    rw [heapsort_max_loop]
    by_cases h1 : m + 1 > 1
    · rw [if_pos h1]
      have hg : inside a [1, ((m + 1 : Nat) : Int)] := by
        have := inside_two a 1 (m + 1) (by omega) (by omega) (by omega) (by omega)
        rw [Nat.cast_one] at this
        exact this
      rw [if_neg (not_not.2 hg)]
      simp only [slot_one, slot_cast, Nat.add_sub_cancel]
      obtain ⟨b1, hb1, hr1⟩ := heapify_max_returns (swap_records a 0 m) m 1 (le_refl _)
        (by rw [swap_records_length]; omega)
      rw [Nat.cast_one] at hb1
      rw [hb1]
      dsimp only
      obtain ⟨b, hb, hlen, hdrop, _⟩ := ih b1 (by rw [hr1.1, swap_records_length]; omega)
      have hroot : rd b1 m = rd a 0 := by
        rw [rd_eq_of_drop_eq b1 (swap_records a 0 m) m m hr1.2.2 (le_refl _),
          rd_swap_records a 0 m m (by omega) (by omega), if_pos rfl]
      refine ⟨b, hb, ?_, ?_, ?_⟩
      · rw [hlen, hr1.1, swap_records_length]
      · have h2 : b.drop (m + 1) = b1.drop (m + 1) := by
          rw [← List.drop_drop, ← List.drop_drop, hdrop]
        have h3 : b1.drop (m + 1) = (swap_records a 0 m).drop (m + 1) := by
          rw [← List.drop_drop, ← List.drop_drop, hr1.2.2]
        rw [h2, h3, swap_records_drop a 0 m (m + 1) (by omega) (by omega) hl]
      · intro _
        rw [rd_eq_of_drop_eq b b1 m m hdrop (le_refl _), hroot]
    · rw [if_neg h1]
      exact ⟨a, rfl, rfl, rfl, by omega⟩

/-! ## Stability of insertion_sort -/

/-- One round of the outer loop of `insertion_sort` keeps, for every key, the records with
that key in the order they had. -/
theorem insertion_round_stable (a : List record_t) (c : Nat) (hc : c < a.length) :
    ∃ arr idx, insertion_shift (rd a c) a c = .ok (arr, idx) ∧ idx < arr.length ∧
      (arr.set idx (rd a c)).length = a.length ∧
      (arr.set idx (rd a c)).drop (c + 1) = a.drop (c + 1) ∧
      ∀ k : Int,
        ((arr.set idx (rd a c)).take (c + 1)).filter (fun r => decide (r.key = k)) =
        (a.take (c + 1)).filter (fun r => decide (r.key = k)) := by
  obtain ⟨hsplit, hlen⟩ := split_at_slot a c hc
  obtain ⟨A, B, arr, idx, hP, hrun, hidx, hres, hB, _⟩ :=
    insertion_shift_spec (rd a c) (a.take c) (rd a c) (a.drop (c + 1))
  rw [hlen, ← hsplit] at hrun
  refine ⟨arr, idx, hrun, hidx, ?_⟩
  rw [hres]
  have hAB : A.length + B.length = c := by
    rw [← hlen, hP]; simp
  have htake : (A ++ rd a c :: B ++ a.drop (c + 1)).take (c + 1) = A ++ rd a c :: B := by
    apply List.take_left'
    simp; omega
  have hdrop : (A ++ rd a c :: B ++ a.drop (c + 1)).drop (c + 1) = a.drop (c + 1) := by
    apply List.drop_left'
    simp; omega
  have htake0 : a.take (c + 1) = A ++ B ++ [rd a c] := by
    rw [← hP, List.take_succ, List.getElem?_eq_getElem hc, rd_of_lt a c hc]
    rfl
  have hlen1 : (A ++ rd a c :: B ++ a.drop (c + 1)).length = a.length := by
    simp only [List.length_append, List.length_cons, List.length_drop]
    omega
  refine ⟨hlen1, hdrop, ?_⟩
  intro k
  rw [htake, htake0]
  simp only [List.filter_append, List.filter_cons, List.filter_nil]
  by_cases hk : (rd a c).key = k
  · have hBnil : B.filter (fun r => decide (r.key = k)) = [] := by
      rw [List.filter_eq_nil_iff]
      intro y hy
      have := hB y hy
      simp only [decide_eq_true_eq]
      omega
    simp [hk, hBnil]
  · simp [hk]

theorem take_split (l : List record_t) (m n : Nat) (h : m ≤ n) :
    l.take n = l.take m ++ (l.drop m).take (n - m) := by
  obtain ⟨d, rfl⟩ := Nat.exists_eq_add_of_le h
  rw [List.take_add, Nat.add_sub_cancel_left]

theorem insertion_sort_loop_stable (n : Nat) :
    ∀ (fuel : Nat) (a : List record_t) (c : Nat), n < fuel + c → 0 < fuel → n ≤ a.length →
      ∃ b, insertion_sort_loop fuel a n c = .ok b ∧ b.length = a.length ∧
        ∀ k : Int, (b.take n).filter (fun r => decide (r.key = k)) =
          (a.take n).filter (fun r => decide (r.key = k)) := by
  intro fuel
  induction fuel with
  | zero => intro a c _ h; omega
  | succ fuel ih =>
    intro a c hf _ hn
    rw [insertion_sort_loop]
    by_cases hc : c < n
    · rw [if_pos hc, if_neg (not_not.2 (within_one a c (by omega)))]
      obtain ⟨arr, idx, hrun, hidx, hlen, hdrop, hfil⟩ := insertion_round_stable a c (by omega)
      dsimp only
      rw [hrun]
      dsimp only
      rw [if_neg (not_not.2 (within_one arr idx hidx))]
      obtain ⟨b, hb, hblen, hbfil⟩ := ih _ (c + 1) (by omega) (by omega)
        (by rw [hlen]; exact hn)
      refine ⟨b, hb, hblen.trans hlen, ?_⟩
      intro k
      rw [hbfil k]
      rw [take_split _ (c + 1) n (by omega), take_split a (c + 1) n (by omega), hdrop,
        List.filter_append, List.filter_append, hfil k]
    · rw [if_neg hc]
      exact ⟨a, rfl, rfl, fun _ => rfl⟩

/-- A pair of records with the same key that appear in this order in `l` appear in this order
in every list with the same per-key subsequences. -/
theorem pair_order_of_filter_eq (l1 l2 : List record_t)
    (h : ∀ k : Int, l2.filter (fun r => decide (r.key = k)) =
      l1.filter (fun r => decide (r.key = k)))
    (x y : record_t) (hxy : x.key = y.key) (hs : [x, y].Sublist l1) : [x, y].Sublist l2 := by
  have h1 : ([x, y].filter (fun r => decide (r.key = x.key))).Sublist
      (l1.filter (fun r => decide (r.key = x.key))) := hs.filter _
  have h2 : [x, y].filter (fun r => decide (r.key = x.key)) = [x, y] := by
    simp [hxy]
  rw [h2, ← h x.key] at h1
  exact h1.trans (List.filter_sublist _)

/-! ## Accesses outside the array

Every read and every write of the embedded code is range-checked, so a call that touches a slot
outside the array, or outside the scratch buffer, ends in `Fault.bounds`.  The calls below are
made with a length larger than the array. -/

/-- With `length = 2` on a one-slot array each sort reads the slot of index 1, which the array
does not have; so does `heapify_max` with `heap_size = 2`, `heap_pop_max` with `n = 2`, and
`max_heap_insert` with a capacity the array does not hold. -/
theorem access_outside_array_faults :
    insertion_sort [⟨7, 3⟩] 2 = .error ⟨Fault.bounds, [⟨7, 3⟩]⟩ ∧
    heapsort_max [⟨7, 3⟩] 2 = .error ⟨Fault.bounds, [⟨7, 3⟩]⟩ ∧
    merge_sort [⟨7, 3⟩] 2 = .error ⟨Fault.bounds, [⟨7, 3⟩]⟩ ∧
    heapify_max [⟨7, 3⟩] 2 1 = .error ⟨Fault.bounds, [⟨7, 3⟩]⟩ ∧
    heap_get_max [] 1 = .error ⟨Fault.bounds, []⟩ ∧
    heap_pop_max [⟨7, 3⟩] 2 = .error ⟨Fault.bounds, [⟨7, 3⟩]⟩ ∧
    max_heap_insert [⟨7, 3⟩] 2 1 9 0 = .error ⟨Fault.bounds, [⟨7, 3⟩]⟩ :=
  ⟨rfl, rfl, rfl, rfl, rfl, rfl, rfl⟩

/-- A scratch buffer shorter than the runs to merge is written outside its range. -/
theorem access_outside_scratch_faults :
    merge_sort_calloc (some []) [⟨7, 3⟩, ⟨2, 4⟩] 2 = .error ⟨Fault.bounds, [⟨7, 3⟩, ⟨2, 4⟩]⟩ :=
  rfl

/-! ## The claims on the heap operations -/

/-- C11: on an array whose first `heap_size` slots are a max heap and which has a spare slot
(`heap_size < capacity`, the array holding `capacity` slots), `max_heap_insert` returns, the
first `heap_size + 1` slots are a max heap, and they hold the records of the old heap plus the
new `(key, payload)` record. -/
theorem max_heap_insert_heap (array : List record_t) (capacity heap_size : Nat) (key : Int)
    (payload : Nat) (hcap : heap_size < capacity) (hlen : capacity ≤ array.length)
    (hh : max_heap array heap_size) :
    ∃ out, max_heap_insert array capacity heap_size key payload = .ok out ∧
      max_heap out (heap_size + 1) ∧
      Multiset.ofList (out.take (heap_size + 1)) =
        ⟨key, payload⟩ ::ₘ Multiset.ofList (array.take heap_size) := by
  obtain ⟨out, h, _, hh2, hp, _⟩ := max_heap_insert_spec array capacity heap_size key payload
    hcap hlen ((max_heap_iff_heap_from _ _).1 hh)
  refine ⟨out, h, (max_heap_iff_heap_from _ _).2 hh2, ?_⟩
  rw [Multiset.cons_coe]
  exact Multiset.coe_eq_coe.2 hp

/-- C11 on the scenario of the spec: keys 5, 3, 8, 1 inserted one at a time into an empty heap
of capacity 4; the theorem is applied to the insertion of 8 into the heap `[5, 3]`, and after
the four insertions the root has key 8. -/
theorem max_heap_insert_heap_scenario :
    (2 < 4 ∧ 4 ≤ ([⟨5, 0⟩, ⟨3, 1⟩, ⟨0, 0⟩, ⟨0, 0⟩] : List record_t).length ∧
      max_heap [⟨5, 0⟩, ⟨3, 1⟩, ⟨0, 0⟩, ⟨0, 0⟩] 2) ∧
    (∃ out, max_heap_insert [⟨5, 0⟩, ⟨3, 1⟩, ⟨0, 0⟩, ⟨0, 0⟩] 4 2 8 2 = .ok out ∧
      max_heap out (2 + 1) ∧
      Multiset.ofList (out.take (2 + 1)) =
        ⟨8, 2⟩ ::ₘ Multiset.ofList (([⟨5, 0⟩, ⟨3, 1⟩, ⟨0, 0⟩, ⟨0, 0⟩] : List record_t).take 2)) ∧
    max_heap_insert [⟨0, 0⟩, ⟨0, 0⟩, ⟨0, 0⟩, ⟨0, 0⟩] 4 0 5 0 = .ok [⟨5, 0⟩, ⟨0, 0⟩, ⟨0, 0⟩, ⟨0, 0⟩] ∧
    max_heap_insert [⟨5, 0⟩, ⟨0, 0⟩, ⟨0, 0⟩, ⟨0, 0⟩] 4 1 3 1 = .ok [⟨5, 0⟩, ⟨3, 1⟩, ⟨0, 0⟩, ⟨0, 0⟩] ∧
    max_heap_insert [⟨5, 0⟩, ⟨3, 1⟩, ⟨0, 0⟩, ⟨0, 0⟩] 4 2 8 2 = .ok [⟨8, 2⟩, ⟨3, 1⟩, ⟨5, 0⟩, ⟨0, 0⟩] ∧
    max_heap_insert [⟨8, 2⟩, ⟨3, 1⟩, ⟨5, 0⟩, ⟨0, 0⟩] 4 3 1 3 = .ok [⟨8, 2⟩, ⟨3, 1⟩, ⟨5, 0⟩, ⟨1, 3⟩] ∧
    heap_get_max [⟨8, 2⟩, ⟨3, 1⟩, ⟨5, 0⟩, ⟨1, 3⟩] 4 =
      .ok (⟨8, 2⟩, [⟨8, 2⟩, ⟨3, 1⟩, ⟨5, 0⟩, ⟨1, 3⟩]) :=
  ⟨⟨by decide, by decide, by decide⟩,
    max_heap_insert_heap _ 4 2 8 2 (by decide) (by decide) (by decide),
    by rfl, by rfl, by rfl, by rfl, by rfl⟩

/-- C12: on an array whose first `n ≥ 1` slots are a max heap, `heap_pop_max(array, n)`
returns and leaves the first `n - 1` slots a max heap. -/
theorem heap_pop_max_heap (array : List record_t) (n : Nat) (hn : 1 ≤ n)
    (hlen : n ≤ array.length) (hh : max_heap array n) :
    ∃ r out, heap_pop_max array n = .ok (r, out) ∧ max_heap out (n - 1) := by
  obtain ⟨out, h, _, hh2, _⟩ := heap_pop_max_spec array n hn hlen
    ((max_heap_iff_heap_from _ _).1 hh)
  exact ⟨rd array 0, out, h, (max_heap_iff_heap_from _ _).2 hh2⟩

/-- C12 on the heap with keys `[9, 6, 4, 1, 5, 3, 2, 1]`: the seven slots left after the pop
hold the keys `[6, 5, 4, 1, 1, 3, 2]`. -/
theorem heap_pop_max_heap_example :
    (1 ≤ 8 ∧ 8 ≤ (tagged [9, 6, 4, 1, 5, 3, 2, 1]).length ∧
      max_heap (tagged [9, 6, 4, 1, 5, 3, 2, 1]) 8) ∧
    (∃ r out, heap_pop_max (tagged [9, 6, 4, 1, 5, 3, 2, 1]) 8 = .ok (r, out) ∧
      max_heap out (8 - 1)) ∧
    (heap_pop_max (tagged [9, 6, 4, 1, 5, 3, 2, 1]) 8).toOption.map
      (fun p => (keys p.2).take 7) = some [6, 5, 4, 1, 1, 3, 2] :=
  ⟨⟨by decide, by decide, by decide⟩,
    heap_pop_max_heap _ 8 (by decide) (by decide) (by decide), by decide⟩

/-- C13: on an array whose first `n ≥ 1` slots are a max heap, `heap_pop_max(array, n)`
returns the record that was in the root slot, its key is at least the key of every record of
the first `n` slots, and afterwards the first `n - 1` slots hold the records of the first `n`
slots without one occurrence of the returned record. -/
theorem heap_pop_max_root (array : List record_t) (n : Nat) (hn : 1 ≤ n)
    (hlen : n ≤ array.length) (hh : max_heap array n) :
    ∃ out, heap_pop_max array n = .ok (rd array 0, out) ∧
      (∀ i, i < n → (rd array i).key ≤ (rd array 0).key) ∧
      Multiset.ofList (out.take (n - 1)) =
        (Multiset.ofList (array.take n)).erase (rd array 0) := by
  obtain ⟨out, h, _, _, hp, _, hmax⟩ := heap_pop_max_spec array n hn hlen
    ((max_heap_iff_heap_from _ _).1 hh)
  refine ⟨out, h, ?_, ?_⟩
  · intro i hi
    exact hmax _ (rd_mem_take array i n hi hlen)
  · have h1 : Multiset.ofList (array.take n) =
        rd array 0 ::ₘ Multiset.ofList (out.take (n - 1)) := by
      rw [Multiset.cons_coe]
      exact (Multiset.coe_eq_coe.2 hp).symm
    rw [h1, Multiset.erase_cons_head]

/-- C13 on the scenario of the spec: `max_heap_build` on the keys `[3, 1, 4, 1, 5, 9, 2, 6]`
gives a heap whose `heap_get_max` has key 9; the theorem is applied to that heap, and after
one `heap_pop_max` the root has key 6. -/
theorem heap_pop_max_root_scenario :
    (max_heap_build (tagged [3, 1, 4, 1, 5, 9, 2, 6]) 8 =
        .ok [⟨9, 5⟩, ⟨6, 7⟩, ⟨4, 2⟩, ⟨1, 1⟩, ⟨5, 4⟩, ⟨3, 0⟩, ⟨2, 6⟩, ⟨1, 3⟩] ∧
      heap_get_max [⟨9, 5⟩, ⟨6, 7⟩, ⟨4, 2⟩, ⟨1, 1⟩, ⟨5, 4⟩, ⟨3, 0⟩, ⟨2, 6⟩, ⟨1, 3⟩] 8 =
        .ok (⟨9, 5⟩, [⟨9, 5⟩, ⟨6, 7⟩, ⟨4, 2⟩, ⟨1, 1⟩, ⟨5, 4⟩, ⟨3, 0⟩, ⟨2, 6⟩, ⟨1, 3⟩])) ∧
    (∃ out, heap_pop_max [⟨9, 5⟩, ⟨6, 7⟩, ⟨4, 2⟩, ⟨1, 1⟩, ⟨5, 4⟩, ⟨3, 0⟩, ⟨2, 6⟩, ⟨1, 3⟩] 8 =
        .ok (rd [⟨9, 5⟩, ⟨6, 7⟩, ⟨4, 2⟩, ⟨1, 1⟩, ⟨5, 4⟩, ⟨3, 0⟩, ⟨2, 6⟩, ⟨1, 3⟩] 0, out) ∧
      (∀ i, i < 8 →
        (rd [⟨9, 5⟩, ⟨6, 7⟩, ⟨4, 2⟩, ⟨1, 1⟩, ⟨5, 4⟩, ⟨3, 0⟩, ⟨2, 6⟩, ⟨1, 3⟩] i).key ≤
          (rd [⟨9, 5⟩, ⟨6, 7⟩, ⟨4, 2⟩, ⟨1, 1⟩, ⟨5, 4⟩, ⟨3, 0⟩, ⟨2, 6⟩, ⟨1, 3⟩] 0).key) ∧
      Multiset.ofList (out.take (8 - 1)) =
        (Multiset.ofList
          (([⟨9, 5⟩, ⟨6, 7⟩, ⟨4, 2⟩, ⟨1, 1⟩, ⟨5, 4⟩, ⟨3, 0⟩, ⟨2, 6⟩, ⟨1, 3⟩] :
            List record_t).take 8)).erase
          (rd [⟨9, 5⟩, ⟨6, 7⟩, ⟨4, 2⟩, ⟨1, 1⟩, ⟨5, 4⟩, ⟨3, 0⟩, ⟨2, 6⟩, ⟨1, 3⟩] 0)) ∧
    heap_pop_max [⟨9, 5⟩, ⟨6, 7⟩, ⟨4, 2⟩, ⟨1, 1⟩, ⟨5, 4⟩, ⟨3, 0⟩, ⟨2, 6⟩, ⟨1, 3⟩] 8 =
      .ok (⟨9, 5⟩, [⟨6, 7⟩, ⟨5, 4⟩, ⟨4, 2⟩, ⟨1, 1⟩, ⟨1, 3⟩, ⟨3, 0⟩, ⟨2, 6⟩, ⟨1, 3⟩]) ∧
    heap_get_max [⟨6, 7⟩, ⟨5, 4⟩, ⟨4, 2⟩, ⟨1, 1⟩, ⟨1, 3⟩, ⟨3, 0⟩, ⟨2, 6⟩, ⟨1, 3⟩] 7 =
      .ok (⟨6, 7⟩, [⟨6, 7⟩, ⟨5, 4⟩, ⟨4, 2⟩, ⟨1, 1⟩, ⟨1, 3⟩, ⟨3, 0⟩, ⟨2, 6⟩, ⟨1, 3⟩]) :=
  ⟨⟨by rfl, by rfl⟩, heap_pop_max_root _ 8 (by decide) (by decide) (by decide),
    by rfl, by rfl⟩

/-- C14: on an array whose first `n` slots are a max heap, `heap_pop_max` called with the heap
sizes `n`, `n - 1`, ..., `1` in succession returns `n` records whose keys are in non-increasing
order, and that key sequence is the descending sort of the keys of the original `n`
records. -/
theorem pop_all_descending (array : List record_t) (n : Nat) (hlen : n ≤ array.length)
    (hh : max_heap array n) :
    ∃ rs, pop_all array n = .ok rs ∧ rs.length = n ∧ List.Sorted (· ≥ ·) (keys rs) ∧
      keys rs = List.insertionSort (· ≥ ·) (keys (array.take n)) := by
  obtain ⟨rs, h, hp, hs⟩ := pop_all_spec n array hlen ((max_heap_iff_heap_from _ _).1 hh)
  obtain ⟨h1, h2⟩ := keys_descending_of_pop_all rs (array.take n) hp hs
  refine ⟨rs, h, ?_, h1, h2⟩
  rw [hp.length_eq, List.length_take_of_le hlen]

/-- C14 on the heap with keys `[9, 6, 4, 1, 5, 3, 2, 1]`: the keys popped are
`[9, 6, 5, 4, 3, 2, 1, 1]`. -/
theorem pop_all_descending_example :
    (8 ≤ (tagged [9, 6, 4, 1, 5, 3, 2, 1]).length ∧
      max_heap (tagged [9, 6, 4, 1, 5, 3, 2, 1]) 8) ∧
    (∃ rs, pop_all (tagged [9, 6, 4, 1, 5, 3, 2, 1]) 8 = .ok rs ∧ rs.length = 8 ∧
      List.Sorted (· ≥ ·) (keys rs) ∧
      keys rs = List.insertionSort (· ≥ ·) (keys ((tagged [9, 6, 4, 1, 5, 3, 2, 1]).take 8))) ∧
    (pop_all (tagged [9, 6, 4, 1, 5, 3, 2, 1]) 8).toOption.map keys =
      some [9, 6, 5, 4, 3, 2, 1, 1] :=
  ⟨⟨by decide, by decide⟩, pop_all_descending _ 8 (by decide) (by decide), by decide⟩

/-- C15 fails as stated: with `heap_size = 1` and `i = 2`, an index above `heap_size`,
`heapify_max` on a one-record array returns normally and leaves the array as it was; it ends in
no failure of any kind. -/
theorem heapify_max_above_heap_size_returns :
    ((1 : Nat) : Int) < 2 ∧ heapify_max [⟨5, 7⟩] 1 2 = .ok [⟨5, 7⟩] ∧
    ¬ ∃ e, heapify_max [⟨5, 7⟩] 1 2 = .error e := by
  refine ⟨by decide, by rfl, ?_⟩
  rintro ⟨e, h⟩
  have h2 : heapify_max [⟨5, 7⟩] 1 2 = .ok [⟨5, 7⟩] := by rfl
  rw [h2] at h
  exact Except.noConfusion h

/-- C15, amended: on an array that holds the `heap_size` records of the heap,
`heapify_max(array, heap_size, i)` fails exactly when `i <= 0`; that failure is the assertion,
met before any slot is written; for every `i > 0` it returns normally, with no slot outside the
array read or written, and for `i > heap_size` it returns leaving the array unchanged. -/
theorem heapify_max_assertion (array : List record_t) (heap_size : Nat) (i : Int)
    (hlen : heap_size ≤ array.length) :
    ((∃ e, heapify_max array heap_size i = .error e) ↔ i ≤ 0) ∧
    (i ≤ 0 → heapify_max array heap_size i = .error ⟨Fault.assertion, array⟩) ∧
    (0 < i → ∃ out, heapify_max array heap_size i = .ok out) ∧
    ((heap_size : Int) < i → heapify_max array heap_size i = .ok array) := by
  have hok : 0 < i → ∃ out, heapify_max array heap_size i = .ok out := by
    intro hi
    obtain ⟨p, rfl⟩ : ∃ p : Nat, i = (p : Int) := ⟨i.toNat, by omega⟩
    exact heapify_max_fuel_ok heap_size (heap_size + 1) array p (by omega) (by omega) (by omega)
      hlen
  have herr : i ≤ 0 → heapify_max array heap_size i = .error ⟨Fault.assertion, array⟩ := by
    intro hi
    unfold heapify_max
    rw [heapify_max_fuel, if_pos (by omega)]
  refine ⟨⟨?_, fun hi => ⟨_, herr hi⟩⟩, herr, hok, ?_⟩
  · rintro ⟨e, h⟩
    by_contra hi
    obtain ⟨out, ho⟩ := hok (by omega)
    rw [ho] at h
    exact Except.noConfusion h
  · intro hi
    obtain ⟨p, rfl⟩ : ∃ p : Nat, i = (p : Int) := ⟨i.toNat, by omega⟩
    exact heapify_max_above array heap_size p (by omega)

/-- C15, amended, on a heap of three records in an array of three slots: the indices 0 and -3
fail with the assertion and leave the array as it was, the index 1 returns, the index 5
returns the array unchanged. -/
theorem heapify_max_assertion_example :
    3 ≤ (tagged [1, 2, 3]).length ∧
    heapify_max (tagged [1, 2, 3]) 3 0 = .error ⟨Fault.assertion, tagged [1, 2, 3]⟩ ∧
    heapify_max (tagged [1, 2, 3]) 3 (-3) = .error ⟨Fault.assertion, tagged [1, 2, 3]⟩ ∧
    (∃ out, heapify_max (tagged [1, 2, 3]) 3 1 = .ok out) ∧
    heapify_max (tagged [1, 2, 3]) 3 5 = .ok (tagged [1, 2, 3]) ∧
    heapify_max (tagged [1, 2, 3]) 3 1 = .ok [⟨3, 2⟩, ⟨2, 1⟩, ⟨1, 0⟩] :=
  ⟨by decide,
    (heapify_max_assertion _ 3 0 (by decide)).2.1 (by decide),
    (heapify_max_assertion _ 3 (-3) (by decide)).2.1 (by decide),
    (heapify_max_assertion _ 3 1 (by decide)).2.2.1 (by decide),
    (heapify_max_assertion _ 3 5 (by decide)).2.2.2 (by decide),
    by rfl⟩

/-- C16: on an array that holds the `n` records of the heap, `heap_get_max(array, n)` and
`heap_pop_max(array, n)` fail if and only if `n == 0`; on an array of at least `capacity`
slots, `max_heap_insert` fails if and only if `capacity <= heap_size`.  Each of these failures
is the assertion, and the array the failing call leaves is the array it was given.  A
`heap_get_max` that returns gives the record in slot 0 and leaves every slot unchanged; a
`heap_pop_max` and a `max_heap_insert` whose precondition holds return. -/
theorem heap_operations_assertions (array : List record_t) (n capacity heap_size : Nat)
    (key : Int) (payload : Nat) (hn : n ≤ array.length) (hcap : capacity ≤ array.length) :
    (((∃ e, heap_get_max array n = .error e) ↔ n = 0) ∧
      (n = 0 → heap_get_max array n = .error ⟨Fault.assertion, array⟩) ∧
      (0 < n → heap_get_max array n = .ok (rd array 0, array))) ∧
    (((∃ e, heap_pop_max array n = .error e) ↔ n = 0) ∧
      (n = 0 → heap_pop_max array n = .error ⟨Fault.assertion, array⟩) ∧
      (0 < n → ∃ out, heap_pop_max array n = .ok (rd array 0, out))) ∧
    (((∃ e, max_heap_insert array capacity heap_size key payload = .error e) ↔
        capacity ≤ heap_size) ∧
      (capacity ≤ heap_size →
        max_heap_insert array capacity heap_size key payload =
          .error ⟨Fault.assertion, array⟩) ∧
      (heap_size < capacity →
        ∃ out, max_heap_insert array capacity heap_size key payload = .ok out)) := by
  have hget : 0 < n → heap_get_max array n = .ok (rd array 0, array) := by
    intro h0
    unfold heap_get_max
    rw [if_neg (by omega), if_neg (not_not.2 (within_one array 0 (by omega)))]
  have hget0 : n = 0 → heap_get_max array n = .error ⟨Fault.assertion, array⟩ := by
    intro h0
    unfold heap_get_max
    rw [if_pos (by omega)]
  have hpop : 0 < n → ∃ out, heap_pop_max array n = .ok (rd array 0, out) := by
    intro h0
    obtain ⟨out, ho, _⟩ := heapify_max_returns (array.set 0 (rd array (n - 1))) (n - 1) 1
      (le_refl _) (by simp; omega)
    rw [Nat.cast_one] at ho
    unfold heap_pop_max
    rw [if_neg (by omega), if_neg (not_not.2 (within_one array 0 (by omega)))]
    dsimp only
    rw [if_neg (not_not.2 (inside_one array n (by omega) hn)), slot_cast,
      heap_pop_max_write array n (by omega) hn, ho]
    exact ⟨out, rfl⟩
  have hpop0 : n = 0 → heap_pop_max array n = .error ⟨Fault.assertion, array⟩ := by
    intro h0
    unfold heap_pop_max
    rw [if_pos (by omega)]
  have hins : heap_size < capacity →
      ∃ out, max_heap_insert array capacity heap_size key payload = .ok out := by
    intro hc
    unfold max_heap_insert
    rw [if_neg (by omega)]
    dsimp only
    rw [if_neg (not_not.2 (inside_one array (heap_size + 1) (by omega) (by omega))), slot_cast,
      Nat.add_sub_cancel, set_key_payload array heap_size key payload (by omega)]
    exact max_heap_insert_loop_returns _ _ (heap_size + 1) (by omega) (by simp; omega)
  have hins0 : capacity ≤ heap_size →
      max_heap_insert array capacity heap_size key payload =
        .error ⟨Fault.assertion, array⟩ := by
    intro hc
    unfold max_heap_insert
    rw [if_pos (by omega)]
  refine ⟨⟨⟨?_, fun h => ⟨_, hget0 h⟩⟩, hget0, hget⟩, ⟨⟨?_, fun h => ⟨_, hpop0 h⟩⟩, hpop0, hpop⟩,
    ⟨⟨?_, fun h => ⟨_, hins0 h⟩⟩, hins0, hins⟩⟩
  · rintro ⟨e, h⟩
    by_contra h0
    rw [hget (by omega)] at h
    exact Except.noConfusion h
  · rintro ⟨e, h⟩
    by_contra h0
    obtain ⟨out, ho⟩ := hpop (by omega)
    rw [ho] at h
    exact Except.noConfusion h
  · rintro ⟨e, h⟩
    by_contra hc
    obtain ⟨out, ho⟩ := hins (by omega)
    rw [ho] at h
    exact Except.noConfusion h

/-- C16 at concrete inputs: the three failing calls leave the array `[(5, 7)]` as it was; on a
heap of three records `heap_get_max` returns the root and the unchanged array, and
`heap_pop_max` and `max_heap_insert` return. -/
theorem heap_operations_assertions_example :
    ((0 : Nat) ≤ ([⟨5, 7⟩] : List record_t).length ∧
      1 ≤ ([⟨5, 7⟩] : List record_t).length ∧
      3 ≤ ([⟨9, 0⟩, ⟨4, 1⟩, ⟨6, 2⟩, ⟨0, 0⟩] : List record_t).length ∧
      4 ≤ ([⟨9, 0⟩, ⟨4, 1⟩, ⟨6, 2⟩, ⟨0, 0⟩] : List record_t).length) ∧
    heap_get_max [⟨5, 7⟩] 0 = .error ⟨Fault.assertion, [⟨5, 7⟩]⟩ ∧
    heap_pop_max [⟨5, 7⟩] 0 = .error ⟨Fault.assertion, [⟨5, 7⟩]⟩ ∧
    max_heap_insert [⟨5, 7⟩] 1 1 9 2 = .error ⟨Fault.assertion, [⟨5, 7⟩]⟩ ∧
    heap_get_max [⟨9, 0⟩, ⟨4, 1⟩, ⟨6, 2⟩, ⟨0, 0⟩] 3 =
      .ok (rd [⟨9, 0⟩, ⟨4, 1⟩, ⟨6, 2⟩, ⟨0, 0⟩] 0, [⟨9, 0⟩, ⟨4, 1⟩, ⟨6, 2⟩, ⟨0, 0⟩]) ∧
    (∃ out, heap_pop_max [⟨9, 0⟩, ⟨4, 1⟩, ⟨6, 2⟩, ⟨0, 0⟩] 3 =
      .ok (rd [⟨9, 0⟩, ⟨4, 1⟩, ⟨6, 2⟩, ⟨0, 0⟩] 0, out)) ∧
    (∃ out, max_heap_insert [⟨9, 0⟩, ⟨4, 1⟩, ⟨6, 2⟩, ⟨0, 0⟩] 4 3 7 3 = .ok out) ∧
    heap_pop_max [⟨9, 0⟩, ⟨4, 1⟩, ⟨6, 2⟩, ⟨0, 0⟩] 3 =
      .ok (⟨9, 0⟩, [⟨6, 2⟩, ⟨4, 1⟩, ⟨6, 2⟩, ⟨0, 0⟩]) ∧
    max_heap_insert [⟨9, 0⟩, ⟨4, 1⟩, ⟨6, 2⟩, ⟨0, 0⟩] 4 3 7 3 =
      .ok [⟨9, 0⟩, ⟨7, 3⟩, ⟨6, 2⟩, ⟨4, 1⟩] :=
  ⟨⟨by decide, by decide, by decide, by decide⟩,
    (heap_operations_assertions [⟨5, 7⟩] 0 1 1 9 2 (by decide) (by decide)).1.2.1 rfl,
    (heap_operations_assertions [⟨5, 7⟩] 0 1 1 9 2 (by decide) (by decide)).2.1.2.1 rfl,
    (heap_operations_assertions [⟨5, 7⟩] 0 1 1 9 2 (by decide) (by decide)).2.2.2.1
      (by decide),
    (heap_operations_assertions [⟨9, 0⟩, ⟨4, 1⟩, ⟨6, 2⟩, ⟨0, 0⟩] 3 4 3 7 3 (by decide)
      (by decide)).1.2.2 (by decide),
    (heap_operations_assertions [⟨9, 0⟩, ⟨4, 1⟩, ⟨6, 2⟩, ⟨0, 0⟩] 3 4 3 7 3 (by decide)
      (by decide)).2.1.2.2 (by decide),
    (heap_operations_assertions [⟨9, 0⟩, ⟨4, 1⟩, ⟨6, 2⟩, ⟨0, 0⟩] 3 4 3 7 3 (by decide)
      (by decide)).2.2.2.2 (by decide),
    by rfl, by rfl⟩

/-- The model `merge_sort` is `merge_sort_calloc` on the zero-filled buffer of `length` records
that a successful `calloc` returns. -/
theorem merge_sort_eq_calloc (array : List record_t) (length : Nat) :
    merge_sort array length =
      merge_sort_calloc (some (List.replicate length ⟨0, 0⟩)) array length := rfl

/-- C17 fails as stated: when `calloc` returns the NULL pointer, `merge_sort` with length 0 or
with length 1 ends the process through `exit(1)`. -/
theorem merge_sort_exits_without_scratch :
    merge_sort_calloc none [] 0 = .error ⟨Fault.exit, []⟩ ∧
    merge_sort_calloc none [⟨7, 3⟩] 1 = .error ⟨Fault.exit, [⟨7, 3⟩]⟩ :=
  ⟨rfl, rfl⟩

/-- C17, amended: with length 0 or length 1, on every array, the empty one and the one of
exactly `n` slots included, `insertion_sort` and `heapsort_max` return and leave every slot
unchanged, and so does `merge_sort` whenever `calloc` hands out a scratch buffer, of whatever
size.  Returning excludes every failure of the model: the assertion, the exit, and
`Fault.bounds`, which a read or write of a slot outside the array or outside the scratch buffer
ends in. -/
theorem sorts_leave_short_arrays (array : List record_t) (n : Nat) (hn : n ≤ 1)
    (scratch : List record_t) :
    (insertion_sort array n = .ok array ∧ heapsort_max array n = .ok array ∧
      merge_sort_calloc (some scratch) array n = .ok array ∧ merge_sort array n = .ok array) ∧
    (∀ e, insertion_sort array n ≠ .error e ∧ heapsort_max array n ≠ .error e ∧
      merge_sort_calloc (some scratch) array n ≠ .error e ∧ merge_sort array n ≠ .error e) := by
  have hok : insertion_sort array n = .ok array ∧ heapsort_max array n = .ok array ∧
      merge_sort_calloc (some scratch) array n = .ok array ∧ merge_sort array n = .ok array := by
    have h : n = 0 ∨ n = 1 := by omega
    rcases h with rfl | rfl
    · refine ⟨?_, ?_, ?_, ?_⟩
      · simp [insertion_sort, insertion_sort_loop]
      · simp [heapsort_max, max_heap_build, max_heap_build_loop, heapsort_max_loop]
      · simp [merge_sort_calloc, merge_sort_loop]
      · simp [merge_sort, merge_sort_loop]
    · refine ⟨?_, ?_, ?_, ?_⟩
      · simp [insertion_sort, insertion_sort_loop]
      · simp [heapsort_max, max_heap_build, max_heap_build_loop, heapsort_max_loop]
      · simp [merge_sort_calloc, merge_sort_loop]
      · simp [merge_sort, merge_sort_loop]
  refine ⟨hok, ?_⟩
  intro e
  rw [hok.1, hok.2.1, hok.2.2.1, hok.2.2.2]
  exact ⟨fun h => Except.noConfusion h, fun h => Except.noConfusion h,
    fun h => Except.noConfusion h, fun h => Except.noConfusion h⟩

/-- C17, amended, on the arrays of exactly `n` slots, where every slot access at an index
`≥ n` would be out of range: the empty array with length 0 and with a `calloc` that hands out
an empty buffer, and a one-slot array with length 1. -/
theorem sorts_leave_short_arrays_example :
    ((0 : Nat) ≤ 1 ∧ (1 : Nat) ≤ 1) ∧
    (insertion_sort [] 0 = .ok [] ∧ heapsort_max [] 0 = .ok [] ∧
      merge_sort_calloc (some []) [] 0 = .ok [] ∧ merge_sort [] 0 = .ok []) ∧
    (insertion_sort [⟨7, 3⟩] 1 = .ok [⟨7, 3⟩] ∧
      heapsort_max [⟨7, 3⟩] 1 = .ok [⟨7, 3⟩] ∧
      merge_sort_calloc (some [⟨0, 0⟩]) [⟨7, 3⟩] 1 = .ok [⟨7, 3⟩] ∧
      merge_sort [⟨7, 3⟩] 1 = .ok [⟨7, 3⟩]) :=
  ⟨⟨by decide, by decide⟩, (sorts_leave_short_arrays [] 0 (by decide) []).1,
    (sorts_leave_short_arrays [⟨7, 3⟩] 1 (by decide) [⟨0, 0⟩]).1⟩

/-- C18: for every `i >= 1`, so for every `1 <= i <= heap_size`, when the subtrees rooted at
the children `2i` and `2i + 1` satisfy the max-heap invariant within the first `heap_size`
positions, `heapify_max` returns and the subtree rooted at `i` satisfies it: every position
`j > i` of that subtree with `j <= heap_size` has `key[parent(j)] >= key[j]`. -/
theorem heapify_max_restores_subtree (array : List record_t) (heap_size i : Nat) (hi : 1 ≤ i)
    (hlen : heap_size ≤ array.length)
    (hch : ∀ c, c = 2 * i ∨ c = 2 * i + 1 → ∀ j, j ≤ heap_size → in_subtree c j → j ≠ c →
      (rd array (j / 2 - 1)).key ≥ (rd array (j - 1)).key) :
    ∃ out, heapify_max array heap_size (i : Int) = .ok out ∧
      ∀ j, j ≤ heap_size → i < j → in_subtree i j →
        (rd out (j / 2 - 1)).key ≥ (rd out (j - 1)).key := by
  have hex : subtree_except array heap_size i i := by
    constructor
    · intro c hcn hc hne
      have hle := in_subtree_le i _ hc
      rcases in_subtree_split i (c / 2) hc hne with h | h
      · exact hch (2 * i) (Or.inl rfl) c hcn (in_subtree_child _ _ h) (by
          have := in_subtree_le _ _ h
          omega)
      · exact hch (2 * i + 1) (Or.inr rfl) c hcn (in_subtree_child _ _ h) (by
          have := in_subtree_le _ _ h
          omega)
    · intro c _ _ h
      exact absurd rfl h
  obtain ⟨out, ho, hheap⟩ := heapify_max_fuel_subtree heap_size i hi (heap_size + 1) array i
    (by omega) (by omega) (in_subtree_refl i) hlen hex
  refine ⟨out, ho, ?_⟩
  intro j hj hij hs
  exact hheap j hj (in_subtree_parent i j hs (by omega))

/-- C18 on seven records with keys `[5, 9, 3, 4, 8, 1, 2]` and `i = 1`: the subtrees at
positions 2 and 3 are heaps, the root is not; afterwards the keys are
`[9, 8, 3, 4, 5, 1, 2]`. -/
theorem heapify_max_restores_subtree_example :
    ((1 : Nat) ≤ 1 ∧ 7 ≤ (tagged [5, 9, 3, 4, 8, 1, 2]).length) ∧
    (∃ out, heapify_max (tagged [5, 9, 3, 4, 8, 1, 2]) 7 ((1 : Nat) : Int) = .ok out ∧
      ∀ j, j ≤ 7 → 1 < j → in_subtree 1 j →
        (rd out (j / 2 - 1)).key ≥ (rd out (j - 1)).key) ∧
    (heapify_max (tagged [5, 9, 3, 4, 8, 1, 2]) 7 1).toOption.map keys =
      some [9, 8, 3, 4, 5, 1, 2] :=
  ⟨⟨by decide, by decide⟩,
    heapify_max_restores_subtree (tagged [5, 9, 3, 4, 8, 1, 2]) 7 1 (by decide)
    (by decide) (by
      intro c hc j hj hs hne
      have hcj := in_subtree_le c j hs
      have h7 : j = 0 ∨ j = 1 ∨ j = 2 ∨ j = 3 ∨ j = 4 ∨ j = 5 ∨ j = 6 ∨ j = 7 := by omega
      rcases hc with rfl | rfl <;> rcases h7 with rfl | rfl | rfl | rfl | rfl | rfl | rfl | rfl <;>
        first
        | omega
        | decide),
    by decide⟩

/-- C19: for every index `i >= 1`, `heapify_max(array, heap_size, i)` returns leaving
unchanged every slot whose 1-based position is above `heap_size` and every slot whose position
is outside the subtree rooted at `i`; and the extraction loop of `heapsort_max`, entered with
heap size `m >= 2`, moves the root to position `m` and ends with that record still in
position `m` and the slots after it untouched. -/
theorem heapify_max_frame (array : List record_t) (heap_size i : Nat) (hi : 1 ≤ i)
    (hlen : heap_size ≤ array.length) (m : Nat) (hm2 : 2 ≤ m) (hm : m ≤ array.length) :
    (∃ out, heapify_max array heap_size (i : Int) = .ok out ∧
      (∀ j, heap_size < j → rd out (j - 1) = rd array (j - 1)) ∧
      (∀ j, 1 ≤ j → ¬ in_subtree i j → rd out (j - 1) = rd array (j - 1))) ∧
    (∃ out, heapsort_max_loop array m = .ok out ∧ rd out (m - 1) = rd array 0 ∧
      out.drop m = array.drop m) := by
  constructor
  · obtain ⟨out, ho, hfr⟩ := heapify_max_fuel_frame heap_size (heap_size + 1) array i
      (by omega) (by omega) hi hlen
    obtain ⟨out2, ho2, hr⟩ := heapify_max_returns array heap_size i hi hlen
    have heq : out2 = out := by
      unfold heapify_max at ho2
      rw [ho] at ho2
      exact (Except.ok.inj ho2).symm
    subst heq
    refine ⟨out2, ho, ?_, hfr⟩
    intro j hj
    exact rd_eq_of_drop_eq out2 array heap_size (j - 1) hr.2.2 (by omega)
  · obtain ⟨out, ho, _, hdrop, hroot⟩ := heapsort_max_loop_frame m array hm
    exact ⟨out, ho, hroot hm2, hdrop⟩

/-- C19 on five records: `heapify_max` at position 2 of a heap of size 4 leaves positions
1, 3 and 5 as they were, and the extraction loop entered with heap size 5 ends with the old
root in slot 4. -/
theorem heapify_max_frame_example :
    ((1 : Nat) ≤ 2 ∧ 4 ≤ (tagged [9, 1, 8, 7, 3]).length ∧ 2 ≤ 5 ∧
      5 ≤ (tagged [9, 1, 8, 7, 3]).length) ∧
    ((∃ out, heapify_max (tagged [9, 1, 8, 7, 3]) 4 ((2 : Nat) : Int) = .ok out ∧
      (∀ j, 4 < j → rd out (j - 1) = rd (tagged [9, 1, 8, 7, 3]) (j - 1)) ∧
      (∀ j, 1 ≤ j → ¬ in_subtree 2 j → rd out (j - 1) = rd (tagged [9, 1, 8, 7, 3]) (j - 1))) ∧
    (∃ out, heapsort_max_loop (tagged [9, 1, 8, 7, 3]) 5 = .ok out ∧
      rd out (5 - 1) = rd (tagged [9, 1, 8, 7, 3]) 0 ∧
      out.drop 5 = (tagged [9, 1, 8, 7, 3]).drop 5)) ∧
    heapify_max (tagged [9, 1, 8, 7, 3]) 4 2 = .ok [⟨9, 0⟩, ⟨7, 3⟩, ⟨8, 2⟩, ⟨1, 1⟩, ⟨3, 4⟩] :=
  ⟨⟨by decide, by decide, by decide, by decide⟩,
    heapify_max_frame (tagged [9, 1, 8, 7, 3]) 4 2 (by decide) (by decide) 5 (by decide)
      (by decide), by rfl⟩

/-- C20: `insertion_sort` is stable: for every key the records with that key are in the
first `n` slots of the output in the order they had in the input, so of two records with
equal keys the one that was at the lower index is at the lower index afterwards. -/
theorem insertion_sort_stable (array : List record_t) (n : Nat) (hn : n ≤ array.length) :
    ∃ out, insertion_sort array n = .ok out ∧
      (∀ k : Int, (out.take n).filter (fun r => decide (r.key = k)) =
        (array.take n).filter (fun r => decide (r.key = k))) ∧
      (∀ x y : record_t, x.key = y.key → [x, y].Sublist (array.take n) →
        [x, y].Sublist (out.take n)) := by
  obtain ⟨out, ho, _, hfil⟩ := insertion_sort_loop_stable n (n + 1) array 1 (by omega)
    (by omega) hn
  refine ⟨out, ho, hfil, ?_⟩
  intro x y hxy hs
  exact pair_order_of_filter_eq (array.take n) (out.take n) hfil x y hxy hs

/-- C20 on the payload-tagged keys `[2, 1, 2, 1, 2]`: the records with key 1 come out as
payloads 1, 3 and those with key 2 as payloads 0, 2, 4. -/
theorem insertion_sort_stable_example :
    5 ≤ (tagged [2, 1, 2, 1, 2]).length ∧
    (∃ out, insertion_sort (tagged [2, 1, 2, 1, 2]) 5 = .ok out ∧
      (∀ k : Int, (out.take 5).filter (fun r => decide (r.key = k)) =
        ((tagged [2, 1, 2, 1, 2]).take 5).filter (fun r => decide (r.key = k))) ∧
      (∀ x y : record_t, x.key = y.key → [x, y].Sublist ((tagged [2, 1, 2, 1, 2]).take 5) →
        [x, y].Sublist (out.take 5))) ∧
    insertion_sort (tagged [2, 1, 2, 1, 2]) 5 = .ok [⟨1, 1⟩, ⟨1, 3⟩, ⟨2, 0⟩, ⟨2, 2⟩, ⟨2, 4⟩] :=
  ⟨by decide, insertion_sort_stable _ 5 (by decide), by rfl⟩

end Sorting
